import Mathlib

/-!
Verification of the xiaoya-emby metadata synchronizer (Go) against its
natural-language specification.

Shallow embedding conventions:
- Go strings are modelled as `List Char` (UTF-8 byte order and codepoint
  order agree, so lexicographic comparisons coincide).
- The three sqlite indexes (single table `files(path, name, size, modified,
  etag)` with `path` as primary key) are modelled as association lists of
  rows; `INSERT OR REPLACE` / `SELECT ... WHERE path = ?` / `DELETE` become
  pure list operations.
- The filesystem is one finite map from absolute path to file content.
  Directories are implicit (they exist exactly when some file lives under
  them), so `MkdirAll` is a no-op and removing an empty directory does not
  change the map.
- Network, goroutines and mutexes are outside the embedding: downloads are
  serialized in walk order and every modelled HTTP exchange yields the
  remote file as given; the per-file decision logic is taken verbatim from
  the source.
-/

namespace Xy

/-- Go strings, modelled as their list of characters. -/
abbrev Str : Type := List Char

/-- Character data of a Lean string literal, used to write `Str` constants. -/
def str (s : String) : Str := s.data

/-- Model of strings.HasPrefix from the Go standard library. -/
def goHasPre (s pre : Str) : Bool := pre.isPrefixOf s

/-- Model of strings.TrimPrefix: drop `pre` from the front of `s` when it is a
prefix, otherwise return `s` unchanged. -/
def goTrimPre (s pre : Str) : Str := if pre.isPrefixOf s then s.drop pre.length else s

/-- Model of strings.TrimLeft with a single-character cut set. -/
def goTrimLeftChar (s : Str) (c : Char) : Str := s.dropWhile (fun d => d == c)

/-- Model of bytes.TrimSpace / strings.TrimSpace (whitespace stripped from both
ends). -/
def goTrimSpace (s : Str) : Str :=
  ((s.dropWhile Char.isWhitespace).reverse.dropWhile Char.isWhitespace).reverse

/-- Fuel-driven worker for goReplaceAll. The fuel only forces structural
recursion; goReplaceAll passes the input length, which always suffices because
each step consumes at least one character. -/
def goReplaceAllAux : Nat → Str → Str → Str → Str
  | 0, s, _, _ => s
  | fuel + 1, s, old, new =>
    match s with
    | [] => []
    | c :: rest =>
      if old ≠ [] ∧ old.isPrefixOf (c :: rest) then
        new ++ goReplaceAllAux fuel ((c :: rest).drop old.length) old new
      else
        c :: goReplaceAllAux fuel rest old new

/-- Model of strings.ReplaceAll with a nonempty pattern: replace every
non-overlapping occurrence of `old`, scanning left to right. -/
def goReplaceAll (s old new : Str) : Str :=
  goReplaceAllAux s.length s old new

/-- Model of path/filepath.Base for cleaned paths (no trailing slash, no empty
or dot segments), plus the root path itself. -/
def goBase (p : Str) : Str :=
  if p = str "/" then str "/" else (p.splitOn '/').getLastD []

/-- Model of path/filepath.Dir for cleaned paths. -/
def goDir (p : Str) : Str :=
  let parts := p.splitOn '/'
  if parts.length ≤ 1 then str "."
  else if parts.dropLast = [[]] then str "/"
  else List.intercalate (str "/") parts.dropLast

/-- Model of path/filepath.Join for an absolute, already-clean first argument
and a clean second argument that may or may not carry a leading slash (the two
shapes the program joins). -/
def goJoin (a b : Str) : Str :=
  (if a = str "/" then [] else a) ++ (if goHasPre b (str "/") then b else str "/" ++ b)

/-- Model of path/filepath.Ext: the suffix of the last path element starting at
its final dot, empty when the element has no dot. -/
def goExt (p : Str) : Str :=
  let base := goBase p
  if base.contains '.' then '.' :: (base.reverse.takeWhile (fun c => c ≠ '.')).reverse
  else []

/-- Model of a parsed net/url URL restricted to scheme, host and path. The
program only ever manipulates absolute http URLs without userinfo, query,
fragment or opaque part, and URLs whose path needs no percent re-encoding, so
these three fields model url.Parse / URL.String faithfully on its inputs. -/
structure GoURL where
  scheme : Str
  host : Str
  path : Str
deriving DecidableEq, Repr

/-- Split a string at the first occurrence of a nonempty pattern, returning the
parts before and after it. -/
def splitFirst : Str → Str → Option (Str × Str)
  | [], _ => none
  | c :: rest, sep =>
    if sep ≠ [] ∧ sep.isPrefixOf (c :: rest) then some ([], (c :: rest).drop sep.length)
    else
      match splitFirst rest sep with
      | some (pre, suf) => some (c :: pre, suf)
      | none => none

/-- Model of url.Parse. Parsing is total here: url.Parse only fails on control
characters, which never occur in the modelled inputs. A string without a
scheme separator parses as a pure path reference, as in Go. -/
def urlParse (s : Str) : GoURL :=
  match splitFirst s (str "://") with
  | none => { scheme := [], host := [], path := s }
  | some (sch, rest) =>
    { scheme := sch, host := rest.takeWhile (fun c => c ≠ '/'),
      path := rest.dropWhile (fun c => c ≠ '/') }

/-- Model of URL.String for the URL shapes above. -/
def urlString (u : GoURL) : Str :=
  if u.scheme = [] ∧ u.host = [] then u.path
  else u.scheme ++ str "://" ++ u.host ++ u.path

/-- The defaultAlistEndpoint constant (config.go). -/
def defaultAlistEndpoint : Str := str "http://xiaoya.host:5678"

/-- The defaultAlistStrmRootPath constant (config.go). -/
def defaultAlistStrmRootPath : Str := str "/d"

/-- Model of the MetadataFile struct (metadata.go): one remote or locally
cached file or directory entry. -/
structure MetadataFile where
  path : Str
  name : Str
  size : Int
  modified : Int
  etag : Str
  isdir : Bool
deriving DecidableEq, Repr

/-- One row of the sqlite table `files(path TEXT PRIMARY KEY, name TEXT,
size INTEGER, modified INTEGER, etag TEXT)` created by createFileTable
(metadata.go). Note the table has no isDirectory column. -/
structure FileRow where
  path : Str
  name : Str
  size : Int
  modified : Int
  etag : Str
deriving DecidableEq, Repr

/-- A local index: the rows of one `files` table. -/
abbrev DB := List FileRow

/-- The five column values written for a MetadataFile by the
`INSERT OR REPLACE INTO files VALUES (?,?,?,?,?)` statements. -/
def rowOfFile (f : MetadataFile) : FileRow :=
  ⟨f.path, f.name, f.size, f.modified, f.etag⟩

/-- Scanning a row back into a MetadataFile: only the five columns are read,
so isdir keeps its zero value false (metadata.go pickFirstFile / listFiles). -/
def fileOfRow (r : FileRow) : MetadataFile :=
  ⟨r.path, r.name, r.size, r.modified, r.etag, false⟩

/-- SELECT by primary key. -/
def dbLookup (db : DB) (p : Str) : Option FileRow :=
  db.find? (fun r => r.path == p)

/-- INSERT OR REPLACE keyed on the path primary key. -/
def dbUpsert (db : DB) (r : FileRow) : DB :=
  db.filter (fun q => q.path != r.path) ++ [r]

/-- DELETE FROM files WHERE path = ?. -/
def dbDelete (db : DB) (p : Str) : DB :=
  db.filter (fun q => q.path != p)

/-- Model of updateToDB (metadata.go): upsert one row and commit. -/
def updateToDB (db : DB) (f : MetadataFile) : DB := dbUpsert db (rowOfFile f)

/-- Model of pickFirstFile (metadata.go): SELECT the row for a path, absent
rows yielding none rather than an error. -/
def pickFirstFile (db : DB) (p : Str) : Option MetadataFile :=
  (dbLookup db p).map fileOfRow

/-- Model of listFiles (metadata.go): every row, scanned as a MetadataFile. -/
def listFiles (db : DB) : List MetadataFile := db.map fileOfRow

/-- The filesystem: a finite map from absolute path to file content. -/
abbrev FS := List (Str × Str)

/-- Read a file; none models a does-not-exist error. -/
def fsRead (fs : FS) (p : Str) : Option Str :=
  (fs.find? (fun e => e.1 == p)).map (fun e => e.2)

/-- Create or truncate-and-write a file (os.WriteFile / os.Create + io.Copy). -/
def fsWrite (fs : FS) (p v : Str) : FS :=
  fs.filter (fun e => e.1 != p) ++ [(p, v)]

/-- Remove a file; removing an absent path is the tolerated not-exist case. -/
def fsRemove (fs : FS) (p : Str) : FS :=
  fs.filter (fun e => e.1 != p)

/-- One observable disk or index mutation, for counting writes across a run. -/
inductive MutOp
  | byteWrite (path : Str)
  | fileRemove (path : Str)
  | indexUpsert (path : Str)
  | indexDelete (path : Str)
deriving DecidableEq, Repr

/-- Filtering with a weaker predicate than the search predicate does not change
the first match. -/
theorem find?_filter_of_imp {α : Type} (l : List α) (p q : α → Bool)
    (h : ∀ a, p a = true → q a = true) :
    (l.filter q).find? p = l.find? p := by
  induction l with
  | nil => rfl
  | cons a t ih =>
    by_cases hq : q a = true
    · by_cases hp : p a = true
      · simp [List.filter_cons, hq, List.find?_cons, hp]
      · simp only [Bool.not_eq_true] at hp
        simp [List.filter_cons, hq, List.find?_cons, hp, ih]
    · have hp : p a = false := by
        rcases Bool.eq_false_or_eq_true (p a) with ht | hf
        · exact absurd (h a ht) hq
        · exact hf
      simp only [Bool.not_eq_true] at hq
      simp [List.filter_cons, hq, List.find?_cons, hp, ih]

/-- Looking up the path just upserted yields the upserted row. -/
theorem dbLookup_dbUpsert_self (db : DB) (r : FileRow) :
    dbLookup (dbUpsert db r) r.path = some r := by
  unfold dbLookup dbUpsert
  rw [List.find?_append]
  have hnone : (db.filter fun q => q.path != r.path).find? (fun q => q.path == r.path) = none := by
    rw [List.find?_eq_none]
    intro x hx
    have := List.of_mem_filter hx
    simp only [bne_iff_ne, ne_eq] at this
    simp [this]
  simp [hnone, List.find?_cons]

/-- Upserting one path leaves every other lookup unchanged. -/
theorem dbLookup_dbUpsert_ne (db : DB) (r : FileRow) (p : Str) (h : p ≠ r.path) :
    dbLookup (dbUpsert db r) p = dbLookup db p := by
  unfold dbLookup dbUpsert
  rw [List.find?_append]
  have hfind : (db.filter fun q => q.path != r.path).find? (fun q => q.path == p)
      = db.find? (fun q => q.path == p) := by
    apply find?_filter_of_imp
    intro a ha
    have : a.path = p := by simpa using ha
    simp [this, h]
  rw [hfind]
  have hsingle : List.find? (fun q => q.path == p) [r] = none := by
    simp [List.find?_cons, (Ne.symm h)]
  rw [hsingle]
  cases db.find? (fun q => q.path == p) <;> rfl

/-- Deleting one path empties its lookup and leaves the others unchanged. -/
theorem dbLookup_dbDelete (db : DB) (p q : Str) :
    dbLookup (dbDelete db p) q = if q = p then none else dbLookup db q := by
  unfold dbLookup dbDelete
  by_cases h : q = p
  · subst h
    rw [if_pos rfl]
    rw [List.find?_eq_none]
    intro x hx
    have := List.of_mem_filter hx
    simp only [bne_iff_ne, ne_eq] at this
    simp [this]
  · rw [if_neg h]
    apply find?_filter_of_imp
    intro a ha
    have : a.path = q := by simpa using ha
    simp [this, h]

/-- Reading the path just written yields the written content. -/
theorem fsRead_fsWrite_self (fs : FS) (p v : Str) :
    fsRead (fsWrite fs p v) p = some v := by
  unfold fsRead fsWrite
  rw [List.find?_append]
  have hnone : (fs.filter fun e => e.1 != p).find? (fun e => e.1 == p) = none := by
    rw [List.find?_eq_none]
    intro x hx
    have := List.of_mem_filter hx
    simp only [bne_iff_ne, ne_eq] at this
    simp [this]
  simp [hnone, List.find?_cons]

/-- Writing one path leaves every other read unchanged. -/
theorem fsRead_fsWrite_ne (fs : FS) (p v q : Str) (h : q ≠ p) :
    fsRead (fsWrite fs p v) q = fsRead fs q := by
  unfold fsRead fsWrite
  rw [List.find?_append]
  have hfind : (fs.filter fun e => e.1 != p).find? (fun e => e.1 == q)
      = fs.find? (fun e => e.1 == q) := by
    apply find?_filter_of_imp
    intro a ha
    have : a.1 = q := by simpa using ha
    simp [this, h]
  rw [hfind]
  have hsingle : List.find? (fun e => e.1 == q) [(p, v)] = none := by
    simp [List.find?_cons, (Ne.symm h)]
  rw [hsingle]
  cases fs.find? (fun e => e.1 == q) <;> rfl

/-- Removing one path empties its read and leaves the others unchanged. -/
theorem fsRead_fsRemove (fs : FS) (p q : Str) :
    fsRead (fsRemove fs p) q = if q = p then none else fsRead fs q := by
  unfold fsRead fsRemove
  by_cases h : q = p
  · subst h
    simp only [if_pos rfl]
    have hnone : (fs.filter fun e => e.1 != q).find? (fun e => e.1 == q) = none := by
      rw [List.find?_eq_none]
      intro x hx
      have := List.of_mem_filter hx
      simp only [bne_iff_ne, ne_eq] at this
      simp [this]
    simp [hnone]
  · rw [if_neg h]
    apply congrArg
    apply find?_filter_of_imp
    intro a ha
    have : a.1 = q := by simpa using ha
    simp [this, h]

/-- One remote leaf file as the winning mirror serves it: the record fields
come from the response headers (Content-Length, Last-Modified, ETag), the
content is the body, and isHtml marks the Content-Type text/html case that
download ignores (metadata.go download). -/
structure RemoteLeaf where
  path : Str
  size : Int
  modified : Int
  etag : Str
  content : Str
  isHtml : Bool
deriving DecidableEq, Repr

/-- The MetadataFile that download builds for a non-HTML response
(metadata.go: path, basename, header size, header time, header etag). -/
def leafFile (r : RemoteLeaf) : MetadataFile :=
  ⟨r.path, goBase r.path, r.size, r.modified, r.etag, false⟩

/-- The per-file persistence predicate that Sync passes to Download
(metadata.go: oldFile == nil, or newFile newer and size or etag differ; the
ModTime subtraction compared with zero is the strict order on the Unix
seconds). -/
def downloadFilter (oldFile : Option MetadataFile) (newFile : MetadataFile) : Bool :=
  match oldFile with
  | none => true
  | some o =>
    decide (o.modified < newFile.modified) &&
      (decide (newFile.size ≠ o.size) || decide (newFile.etag ≠ o.etag))

/-- Model of MetadataCrawler.download after a successful (status 200) response
for one path: an HTML document is ignored; otherwise the filter decides whether
the body is written under the download directory and the record upserted and
committed, or nothing happens (metadata.go download). -/
def downloadModel (downloadDir : Str) (r : RemoteLeaf)
    (filterFn : MetadataFile → Bool) (fs : FS) (db : DB) : FS × DB × List MutOp :=
  if r.isHtml then (fs, db, [])
  else
    let f := leafFile r
    if filterFn f then
      let key := goJoin downloadDir f.path
      (fsWrite fs key r.content, updateToDB db f,
        [MutOp.byteWrite key, MutOp.indexUpsert f.path])
    else (fs, db, [])

/-- C3. The download predicate persists bytes exactly when no index record
exists or the remote record is strictly newer with a size or etag difference;
with a record that is not older than the remote one, the predicate is false
and download leaves the filesystem and the index untouched. -/
theorem c3_download_skip_predicate (oldFile : Option MetadataFile)
    (nf : MetadataFile) (dir : Str) (r : RemoteLeaf) (fs : FS) (db : DB) :
    (downloadFilter oldFile nf = true ↔
      (oldFile = none ∨ ∃ o, oldFile = some o ∧ o.modified < nf.modified ∧
        (nf.size ≠ o.size ∨ nf.etag ≠ o.etag)))
    ∧ (∀ o, oldFile = some o → nf.modified ≤ o.modified →
        downloadFilter oldFile nf = false)
    ∧ (∀ o, pickFirstFile db r.path = some o → r.modified ≤ o.modified →
        downloadModel dir r (downloadFilter (some o)) fs db = (fs, db, [])) := by
  refine ⟨?_, ?_, ?_⟩
  · cases oldFile with
    | none => simp [downloadFilter]
    | some o =>
      simp only [downloadFilter]
      constructor
      · intro hb
        right
        refine ⟨o, rfl, ?_, ?_⟩
        · have := (Bool.and_eq_true _ _).mp hb
          exact of_decide_eq_true this.1
        · have := (Bool.and_eq_true _ _).mp hb
          rcases (Bool.or_eq_true _ _).mp this.2 with hs | he
          · exact Or.inl (of_decide_eq_true hs)
          · exact Or.inr (of_decide_eq_true he)
      · rintro (hn | ⟨o2, ho2, hm, hd⟩)
        · exact absurd hn (by simp)
        · have : o2 = o := by injection ho2.symm
          subst this
          rw [Bool.and_eq_true]
          refine ⟨decide_eq_true hm, ?_⟩
          rw [Bool.or_eq_true]
          rcases hd with hs | he
          · exact Or.inl (decide_eq_true hs)
          · exact Or.inr (decide_eq_true he)
  · intro o ho hle
    subst ho
    simp only [downloadFilter]
    have : decide (o.modified < nf.modified) = false := by
      simp [not_lt.mpr hle]
    simp [this]
  · intro o ho hle
    unfold downloadModel
    by_cases hh : r.isHtml
    · simp [hh]
    · have hfilter : downloadFilter (some o) (leafFile r) = false := by
        simp only [downloadFilter, leafFile]
        have : decide (o.modified < r.modified) = false := by
          simp [not_lt.mpr hle]
        simp [this]
      simp [hh, hfilter]

/-- Witness for C3 at a concrete record and leaf: local record has
modified = 5, remote reports modified = 4 (older), so download changes
nothing. -/
theorem c3_download_skip_predicate_witness :
    downloadModel (str "/download")
        ⟨str "/a/b.nfo", 10, 4, str "A", str "body", false⟩
        (downloadFilter (some ⟨str "/a/b.nfo", str "b.nfo", 10, 5, str "A", false⟩))
        [] [⟨str "/a/b.nfo", str "b.nfo", 10, 5, str "A"⟩]
      = ([], [⟨str "/a/b.nfo", str "b.nfo", 10, 5, str "A"⟩], []) :=
  (c3_download_skip_predicate
      (some ⟨str "/a/b.nfo", str "b.nfo", 10, 5, str "A", false⟩)
      ⟨str "/a/b.nfo", str "b.nfo", 10, 4, str "A", false⟩
      (str "/download")
      ⟨str "/a/b.nfo", 10, 4, str "A", str "body", false⟩
      [] [⟨str "/a/b.nfo", str "b.nfo", 10, 5, str "A"⟩]).2.2
    ⟨str "/a/b.nfo", str "b.nfo", 10, 5, str "A", false⟩
    (by decide) (by decide)

/-- Model of the FINAL retry loop at the end of MetadataCrawler.Sync
(metadata.go). One iteration re-downloads the batch `failed`; the still
failing entries are `step retry failed`, where `step` abstracts the network
outcome of the pass run with the given value of the retry counter. The result
is the number of passes executed and the error, if any: a pass leaving
failures either returns the maximum-retry error when retry exceeds 5 or
re-enters the loop with the counter incremented. -/
def retryFinal (step : Nat → List Str → List Str) (failed : List Str) (retry : Nat) :
    Nat × Option Str :=
  let failed2 := step retry failed
  if failed2 = [] then (1, none)
  else if h : retry > 5 then (1, some (str "maximum retry attempts exceeded"))
  else
    let r := retryFinal step failed2 (retry + 1)
    (r.1 + 1, r.2)
termination_by 6 - retry
decreasing_by simp_wf; omega

/-- Round accounting for the retry loop: started at counter value retry ≤ 6,
it executes at most 7 - retry passes and reports the maximum-retry error
exactly after pass number 7 - retry. -/
theorem retryFinal_spec (step : Nat → List Str → List Str) :
    ∀ (n : Nat) (failed : List Str) (retry : Nat), retry ≤ 6 → 6 - retry ≤ n →
      (retryFinal step failed retry).1 + retry ≤ 7
      ∧ ((retryFinal step failed retry).2 ≠ none →
          (retryFinal step failed retry).1 + retry = 7
          ∧ (retryFinal step failed retry).2
              = some (str "maximum retry attempts exceeded")) := by
  intro n
  induction n with
  | zero =>
    intro failed retry h6 hn
    have h : retry = 6 := by omega
    subst h
    rw [retryFinal]
    by_cases he : step 6 failed = []
    · simp [he]
    · simp [he]
  | succ n ih =>
    intro failed retry h6 hn
    rw [retryFinal]
    by_cases he : step retry failed = []
    · simp [he]
      omega
    · by_cases hr : retry > 5
      · simp [he, hr]
        omega
      · have h6a : retry + 1 ≤ 6 := by omega
        have hna : 6 - (retry + 1) ≤ n := by omega
        have hrec := ih (step retry failed) (retry + 1) h6a hna
        rw [if_neg he, dif_neg hr]
        refine ⟨?_, ?_⟩
        · show (retryFinal step (step retry failed) (retry + 1)).1 + 1 + retry ≤ 7
          have := hrec.1
          omega
        · intro hne
          have hne2 : (retryFinal step (step retry failed) (retry + 1)).2 ≠ none := hne
          refine ⟨?_, (hrec.2 hne2).2⟩
          show (retryFinal step (step retry failed) (retry + 1)).1 + 1 + retry = 7
          have := (hrec.2 hne2).1
          omega

/-- C4 counterexample: with every batch persistently failing, the loop
performs 7 retry passes, not at most 5, before returning the maximum-retry
error. -/
theorem c4_counterexample :
    retryFinal (fun _ ps => ps) [str "/a"] 0
        = (7, some (str "maximum retry attempts exceeded"))
      ∧ ¬ (7 ≤ 5) := by
  constructor
  · simp [retryFinal]
  · decide

/-- C4 as amended: after the walk, failed paths are retried in batches for at
most 7 rounds (the retry counter must exceed 5 before the check fires); the
maximum-retry error is returned exactly when all 7 rounds leave failures, in
which case exactly 7 rounds were performed. -/
theorem c4_retry_round_bound (step : Nat → List Str → List Str) (failed : List Str) :
    (retryFinal step failed 0).1 ≤ 7
    ∧ ((retryFinal step failed 0).2 ≠ none →
        (retryFinal step failed 0).1 = 7
        ∧ (retryFinal step failed 0).2
            = some (str "maximum retry attempts exceeded")) := by
  have h := retryFinal_spec step 6 failed 0 (by omega) (by omega)
  constructor
  · omega
  · intro hne
    exact ⟨by have := (h.2 hne).1; omega, (h.2 hne).2⟩

/-- Witness for C4 at the concrete always-failing batch: exactly 7 rounds. -/
theorem c4_retry_round_bound_witness :
    (retryFinal (fun _ ps => ps) [str "/a"] 0).1 = 7 :=
  ((c4_retry_round_bound (fun _ ps => ps) [str "/a"]).2 (by simp [retryFinal])).1

/-- A mirror paired with its score, the mean latency of its successful probes
in nanoseconds (metadata.go sortMirror; time.Duration division is integer
division). -/
structure SortMirror where
  mirror : Str
  duration : Nat
deriving DecidableEq, Repr

/-- The successful probe latencies one mirror collects: validateMirror is
called exactly 5 times and failed probes (which the source signals as
duration 0) contribute nothing (metadata.go validateMirrors). `probe m i`
is the latency of the i-th probe of m when it succeeds. -/
def probeDurations (probe : Str → Nat → Option Nat) (m : Str) : List Nat :=
  (List.range 5).filterMap (probe m)

/-- The scored entry a mirror contributes to the ranking: none when fewer
than 4 of its 5 probes succeeded, otherwise the mirror with its mean
successful latency. -/
def scoreMirror (probe : Str → Nat → Option Nat) (m : Str) : Option SortMirror :=
  let dur := probeDurations probe m
  if dur.length < 4 then none
  else some ⟨m, dur.sum / dur.length⟩

/-- The qualifying mirrors sorted ascending by score (sort.Slice over the
duration field). -/
def rankedMirrors (probe : Str → Nat → Option Nat) (mirrors : List Str) :
    List SortMirror :=
  List.insertionSort (fun a b : SortMirror => a.duration ≤ b.duration)
    (mirrors.filterMap (scoreMirror probe))

/-- Model of MetadataCrawler.validateMirrors: the ranked qualifying mirror
URLs, or the no-viable-mirror error when none qualifies. -/
def validateMirrors (probe : Str → Nat → Option Nat) (mirrors : List Str) :
    Except Str (List Str) :=
  let ranked := (rankedMirrors probe mirrors).map SortMirror.mirror
  if ranked = [] then Except.error (str "at least one metadata mirror is required")
  else Except.ok ranked

/-- The validMirrors field after a validateMirrors call: wholesale
replacement on success (the mutex only guards the assignment), previous list
kept on failure (the function returns before assigning). -/
def validMirrorsAfter (probe : Str → Nat → Option Nat) (mirrors prev : List Str) :
    List Str :=
  match validateMirrors probe mirrors with
  | Except.ok v => v
  | Except.error _ => prev

instance : IsTotal SortMirror (fun a b => a.duration ≤ b.duration) :=
  ⟨fun a b => Nat.le_total a.duration b.duration⟩

instance : IsTrans SortMirror (fun a b => a.duration ≤ b.duration) :=
  ⟨fun _ _ _ hab hbc => Nat.le_trans hab hbc⟩

/-- Mapping the scored entries back to their names selects exactly the
qualifying mirrors, in pool order. -/
theorem filterMap_score_names (probe : Str → Nat → Option Nat) (mirrors : List Str) :
    (mirrors.filterMap (scoreMirror probe)).map SortMirror.mirror
      = mirrors.filter (fun m => decide (4 ≤ (probeDurations probe m).length)) := by
  induction mirrors with
  | nil => rfl
  | cons m t ih =>
    by_cases hq : (probeDurations probe m).length < 4
    · have hs : scoreMirror probe m = none := by simp [scoreMirror, hq]
      have hf : decide (4 ≤ (probeDurations probe m).length) = false := by
        simp
        omega
      simp [List.filterMap_cons, hs, List.filter_cons, hf, ih]
    · have hs : scoreMirror probe m
          = some ⟨m, (probeDurations probe m).sum / (probeDurations probe m).length⟩ := by
        simp [scoreMirror, hq]
      have hf : decide (4 ≤ (probeDurations probe m).length) = true := by
        simp
        omega
      simp [List.filterMap_cons, hs, List.filter_cons, hf, ih]

/-- The ranking carries exactly the mirrors with at least 4 successful
probes. -/
theorem rankedMirrors_names (probe : Str → Nat → Option Nat) (mirrors : List Str) :
    ((rankedMirrors probe mirrors).map SortMirror.mirror).Perm
      (mirrors.filter (fun m => decide (4 ≤ (probeDurations probe m).length))) := by
  have hperm := List.perm_insertionSort
    (fun a b : SortMirror => a.duration ≤ b.duration)
    (mirrors.filterMap (scoreMirror probe))
  have hmap := hperm.map SortMirror.mirror
  refine hmap.trans ?_
  rw [filterMap_score_names]

/-- C8. Each mirror is probed 5 times (probeDurations ranges over 5 probes);
mirrors with fewer than 4 successes are excluded and the rest appear exactly
once each, sorted ascending by their mean successful-probe latency; the
no-viable-mirror error occurs exactly when no mirror qualifies; on success
the shared list is replaced wholesale by the fresh ranking, whatever its
previous value. -/
theorem c8_mirror_ranking (probe : Str → Nat → Option Nat) (mirrors prev : List Str) :
    ((rankedMirrors probe mirrors).map SortMirror.mirror).Perm
        (mirrors.filter (fun m => decide (4 ≤ (probeDurations probe m).length)))
    ∧ List.Sorted (fun a b : SortMirror => a.duration ≤ b.duration)
        (rankedMirrors probe mirrors)
    ∧ (∀ s ∈ rankedMirrors probe mirrors,
        s.duration = (probeDurations probe s.mirror).sum
            / (probeDurations probe s.mirror).length
        ∧ 4 ≤ (probeDurations probe s.mirror).length)
    ∧ ((∃ e, validateMirrors probe mirrors = Except.error e) ↔
        ∀ m ∈ mirrors, (probeDurations probe m).length < 4)
    ∧ (∀ ranking, validateMirrors probe mirrors = Except.ok ranking →
        validMirrorsAfter probe mirrors prev = ranking) := by
  refine ⟨rankedMirrors_names probe mirrors, ?_, ?_, ?_, ?_⟩
  · exact List.sorted_insertionSort _ _
  · intro s hs
    have hmem : s ∈ mirrors.filterMap (scoreMirror probe) :=
      (List.mem_insertionSort _).mp hs
    rcases List.mem_filterMap.mp hmem with ⟨m, _, hsm⟩
    by_cases hq : (probeDurations probe m).length < 4
    · simp [scoreMirror, hq] at hsm
    · have : s = ⟨m, (probeDurations probe m).sum / (probeDurations probe m).length⟩ := by
        simp [scoreMirror, hq] at hsm
        exact hsm.symm
      subst this
      refine ⟨rfl, ?_⟩
      show 4 ≤ (probeDurations probe m).length
      omega
  · constructor
    · rintro ⟨e, he⟩
      unfold validateMirrors at he
      by_cases hnil : (rankedMirrors probe mirrors).map SortMirror.mirror = []
      · have hp := rankedMirrors_names probe mirrors
        rw [hnil] at hp
        have hfilter : mirrors.filter
            (fun m => decide (4 ≤ (probeDurations probe m).length)) = [] :=
          List.Perm.eq_nil hp.symm
        intro m hm
        by_contra hge
        have h4 : 4 ≤ (probeDurations probe m).length := by omega
        have : m ∈ mirrors.filter
            (fun m => decide (4 ≤ (probeDurations probe m).length)) :=
          List.mem_filter.mpr ⟨hm, by simpa using h4⟩
        rw [hfilter] at this
        exact absurd this (List.not_mem_nil m)
      · rw [if_neg hnil] at he
        exact absurd he (by simp)
    · intro hall
      have hfilter : mirrors.filter
          (fun m => decide (4 ≤ (probeDurations probe m).length)) = [] := by
        rw [List.filter_eq_nil_iff]
        intro m hm
        have := hall m hm
        simp
        omega
      have hnil : (rankedMirrors probe mirrors).map SortMirror.mirror = [] := by
        have := rankedMirrors_names probe mirrors
        rw [hfilter] at this
        exact List.Perm.eq_nil this
      refine ⟨str "at least one metadata mirror is required", ?_⟩
      unfold validateMirrors
      rw [if_pos hnil]
  · intro ranking hok
    unfold validMirrorsAfter
    rw [hok]

/-- Witness for C8 at one always-fast mirror: the ranking is published as the
new shared list. -/
theorem c8_mirror_ranking_witness :
    validMirrorsAfter (fun _ _ => some 10) [str "https://m.example/"] [str "old"]
      = [str "https://m.example/"] :=
  (c8_mirror_ranking (fun _ _ => some 10) [str "https://m.example/"] [str "old"]).2.2.2.2
    [str "https://m.example/"] rfl

/-- A node of the remote tree as one walker sees it: the FileInfo that the
parent ReadDir (or the root Stat) produced, plus the ReadDir outcome for the
node itself — none models ReadDir failing on it, some cs a successful listing
with the given child subtrees, each paired with its entry positionally (the
remote server resolves each child path). The walk branches on IsDir of the
FileInfo, so files carry no meaningful children. -/
inductive FNode where
  | mk (info : MetadataFile) (children : Option (List FNode))

/-- The FileInfo of a node. -/
def nodeInfo : FNode → MetadataFile
  | .mk info _ => info

/-- The entry name of a node (fileInfo.Name()). -/
def nodeName (t : FNode) : Str := (nodeInfo t).name

/-- The ReadDir outcome of a node. -/
def nodeKids : FNode → Option (List FNode)
  | .mk _ children => children

/-- The result a visit callback (WalkFunc) produces: nil, the SkipDir or
SkipAll sentinels of path/filepath, or any other error. -/
inductive WalkRes where
  | ok
  | skipDir
  | skipAll
  | fail
deriving DecidableEq, Repr

/-- One observable step of a walk, in order: Stat and ReadDir remote calls and
WalkFunc invocations. Paths are segment lists, [] naming the root "/" (the
walkers only build cleaned absolute paths, joined one segment at a time). -/
inductive WalkEvent where
  | statCall (path : List Str)
  | readDirCall (path : List Str)
  | visit (path : List Str) (info : Option MetadataFile) (errFlag : Bool)
deriving DecidableEq, Repr

/-- The path of an event. -/
def eventPath : WalkEvent → List Str
  | .statCall q => q
  | .readDirCall q => q
  | .visit q _ _ => q

/-- The child loop of walk: run the walker on each child in the given order;
keep going when the child returned nil, or returned SkipDir and its FileInfo
is a directory; any other outcome stops the loop and propagates (events up to
and including the stopping child are kept). -/
def walkKids (step : List Str → FNode → WalkRes × List WalkEvent) (path : List Str) :
    List FNode → WalkRes × List WalkEvent
  | [] => (WalkRes.ok, [])
  | c :: rest =>
    let r := step (path ++ [nodeName c]) c
    if r.1 = WalkRes.ok then
      let r2 := walkKids step path rest
      (r2.1, r.2 ++ r2.2)
    else if (nodeInfo c).isdir && decide (r.1 = WalkRes.skipDir) then
      let r2 := walkKids step path rest
      (r2.1, r.2 ++ r2.2)
    else r

/-- The recursive walk body, shared verbatim by MetadataCrawler.walk
(metadata.go) and AlistClient.walk (alist.go): a non-directory is visited
directly; for a directory, ReadDir runs first, then the callback (with the
ReadDir error, if any); descent happens only when both succeeded, on the
children sorted ascending by name (sort.Slice with the Name() order). The
fuel argument only forces structural recursion; every use below supplies
fuel exceeding the tree depth, and exhausted fuel is a bare failure that
stops the caller. -/
def walkNodeAux (wf : List Str → Option MetadataFile → Bool → WalkRes) :
    Nat → List Str → FNode → WalkRes × List WalkEvent
  | 0, _, _ => (WalkRes.fail, [])
  | fuel + 1, path, t =>
    if (nodeInfo t).isdir = false then
      (wf path (some (nodeInfo t)) false, [WalkEvent.visit path (some (nodeInfo t)) false])
    else
      match nodeKids t with
      | none =>
        (wf path (some (nodeInfo t)) true,
          [WalkEvent.readDirCall path, WalkEvent.visit path (some (nodeInfo t)) true])
      | some cs =>
        let e1 := wf path (some (nodeInfo t)) false
        if e1 = WalkRes.ok then
          let sorted := List.insertionSort (fun a b : FNode => nodeName a ≤ nodeName b) cs
          let r := walkKids (fun p c => walkNodeAux wf fuel p c) path sorted
          (r.1, WalkEvent.readDirCall path :: WalkEvent.visit path (some (nodeInfo t)) false :: r.2)
        else
          (e1, [WalkEvent.readDirCall path, WalkEvent.visit path (some (nodeInfo t)) false])

/-- Model of the Walk entry point for a root whose Stat succeeds: Stat the
root once, recurse, and swallow the SkipDir / SkipAll sentinels at the top
level. -/
def runWalk (wf : List Str → Option MetadataFile → Bool → WalkRes) (fuel : Nat)
    (t : FNode) : WalkRes × List WalkEvent :=
  let r := walkNodeAux wf fuel [] t
  (if r.1 = WalkRes.skipDir ∨ r.1 = WalkRes.skipAll then WalkRes.ok else r.1,
    WalkEvent.statCall [] :: r.2)

/-- The WalkFunc that MetadataCrawler.Sync passes to Walk (metadata.go): an
error is propagated; a directory other than the root whose first path segment
is not among the selected roots yields SkipDir; everything else (allowed
directories, and files, whose download dispatch always returns nil here)
yields nil. -/
def syncWalkFn (sel : List Str) (path : List Str) (info : Option MetadataFile)
    (errFlag : Bool) : WalkRes :=
  if errFlag then WalkRes.fail
  else
    match info with
    | none => WalkRes.fail
    | some i =>
      if i.isdir then
        match path with
        | [] => WalkRes.ok
        | seg :: _ => if seg ∈ sel then WalkRes.ok else WalkRes.skipDir
      else WalkRes.ok

/-- Events produced by the child loop satisfy any property that each child
walk's events satisfy. -/
theorem walkKids_events (step : List Str → FNode → WalkRes × List WalkEvent)
    (path : List Str) (P : WalkEvent → Prop)
    (hstep : ∀ c ev, ev ∈ (step (path ++ [nodeName c]) c).2 → P ev) :
    ∀ l ev, ev ∈ (walkKids step path l).2 → P ev := by
  intro l
  induction l with
  | nil => intro ev hev; simp [walkKids] at hev
  | cons c rest ih =>
    intro ev hev
    unfold walkKids at hev
    by_cases h1 : (step (path ++ [nodeName c]) c).1 = WalkRes.ok
    · simp only [h1, if_pos rfl] at hev
      rcases List.mem_append.mp hev with h | h
      · exact hstep c ev h
      · exact ih ev h
    · rw [if_neg h1] at hev
      by_cases h2 : ((nodeInfo c).isdir && decide ((step (path ++ [nodeName c]) c).1 = WalkRes.skipDir)) = true
      · rw [if_pos h2] at hev
        rcases List.mem_append.mp hev with h | h
        · exact hstep c ev h
        · exact ih ev h
      · rw [if_neg h2] at hev
        exact hstep c ev hev

/-- During the Sync walk, a ReadDir call under an allowed or shallow path
again has an allowed or shallow path: no ReadDir ever happens strictly below
a directory whose first segment is not selected, and no Stat event appears at
all inside the recursion. -/
theorem walkNodeAux_syncWalkFn_calls (sel : List Str) :
    ∀ (fuel : Nat) (path : List Str) (t : FNode),
      (path = [] ∨ path.length = 1 ∨ (∃ s rest, path = s :: rest ∧ s ∈ sel)) →
      ∀ ev ∈ (walkNodeAux (syncWalkFn sel) fuel path t).2,
        (∀ q, ev = WalkEvent.readDirCall q →
          q.length ≤ 1 ∨ ∃ s rest, q = s :: rest ∧ s ∈ sel)
        ∧ (∀ q, ev ≠ WalkEvent.statCall q) := by
  intro fuel
  induction fuel with
  | zero =>
    intro path t hpath ev hev
    simp [walkNodeAux] at hev
  | succ fuel ih =>
    intro path t hpath ev hev
    obtain ⟨info, children⟩ := t
    have hpathgood : path.length ≤ 1 ∨ ∃ s rest, path = s :: rest ∧ s ∈ sel := by
      rcases hpath with h | h | h
      · left; simp [h]
      · left; omega
      · right; exact h
    rw [walkNodeAux] at hev
    simp only [nodeInfo, nodeKids] at hev
    by_cases hfile : info.isdir = false
    · rw [if_pos hfile] at hev
      simp at hev
      subst hev
      exact ⟨(by intro q hq; cases hq), (by intro q hq; cases hq)⟩
    · rw [if_neg hfile] at hev
      cases children with
      | none =>
        simp at hev
        rcases hev with hev | hev
        · subst hev
          refine ⟨?_, (by intro q hq; cases hq)⟩
          intro q hq
          injection hq with hq
          subst hq
          exact hpathgood
        · subst hev
          exact ⟨(by intro q hq; cases hq), (by intro q hq; cases hq)⟩
      | some cs =>
        dsimp only at hev
        by_cases hok : syncWalkFn sel path (some info) false = WalkRes.ok
        · rw [if_pos hok] at hev
          simp only [List.mem_cons] at hev
          rcases hev with hev | hev | hev
          · subst hev
            refine ⟨?_, (by intro q hq; cases hq)⟩
            intro q hq
            injection hq with hq
            subst hq
            exact hpathgood
          · subst hev
            exact ⟨(by intro q hq; cases hq), (by intro q hq; cases hq)⟩
          · -- event of a child walk: the child path keeps the allowed shape
            have hdir : info.isdir = true := by
              rcases Bool.eq_false_or_eq_true info.isdir with ht | hf
              · exact ht
              · exact absurd hf hfile
            have hhead : path = [] ∨ ∃ s rest, path = s :: rest ∧ s ∈ sel := by
              rcases hpath with h | h | h
              · exact Or.inl h
              · cases hp : path with
                | nil => exact Or.inl rfl
                | cons s rest =>
                  right
                  refine ⟨s, rest, rfl, ?_⟩
                  rw [hp] at hok
                  simp only [syncWalkFn, if_neg (by simp : ¬(false = true)), hdir,
                    if_pos rfl] at hok
                  by_cases hsel : s ∈ sel
                  · exact hsel
                  · rw [if_neg hsel] at hok
                    cases hok
              · exact Or.inr h
            refine walkKids_events (fun p c => walkNodeAux (syncWalkFn sel) fuel p c) path
              (fun ev2 =>
                (∀ q, ev2 = WalkEvent.readDirCall q →
                  q.length ≤ 1 ∨ ∃ s rest, q = s :: rest ∧ s ∈ sel)
                ∧ (∀ q, ev2 ≠ WalkEvent.statCall q)) ?_ _ ev hev
            intro c ev2 hev2
            apply ih (path ++ [nodeName c]) c
            · rcases hhead with h | ⟨s, rest, hp, hs⟩
              · subst h
                right; left; simp
              · subst hp
                right; right
                exact ⟨s, rest ++ [nodeName c], rfl, hs⟩
            · exact hev2
        · rw [if_neg hok] at hev
          simp at hev
          rcases hev with hev | hev
          · subst hev
            refine ⟨?_, (by intro q hq; cases hq)⟩
            intro q hq
            injection hq with hq
            subst hq
            exact hpathgood
          · subst hev
            exact ⟨(by intro q hq; cases hq), (by intro q hq; cases hq)⟩

/-- C7. During the Sync walk from the root, Stat is called only on the root,
and ReadDir is never invoked strictly below a directory whose top-level
segment is not in the allow-list: every ReadDir path is the root, a top-level
directory, or lies under an allow-listed root. In particular no descendant of
a non-allow-listed directory is ever listed. -/
theorem c7_allowlist_skip (sel : List Str) (fuel : Nat) (t : FNode) :
    (∀ q, WalkEvent.statCall q ∈ (runWalk (syncWalkFn sel) fuel t).2 → q = [])
    ∧ (∀ q, WalkEvent.readDirCall q ∈ (runWalk (syncWalkFn sel) fuel t).2 →
        q.length ≤ 1 ∨ ∃ s rest, q = s :: rest ∧ s ∈ sel)
    ∧ (∀ s rest, s ∉ sel → rest ≠ [] →
        WalkEvent.readDirCall (s :: rest) ∉ (runWalk (syncWalkFn sel) fuel t).2) := by
  have hmain := walkNodeAux_syncWalkFn_calls sel fuel [] t (Or.inl rfl)
  refine ⟨?_, ?_, ?_⟩
  · intro q hq
    unfold runWalk at hq
    simp only [List.mem_cons] at hq
    rcases hq with hq | hq
    · injection hq.symm with h
      exact h.symm
    · exact absurd rfl ((hmain _ hq).2 q)
  · intro q hq
    unfold runWalk at hq
    simp only [List.mem_cons] at hq
    rcases hq with hq | hq
    · cases hq
    · exact (hmain _ hq).1 q rfl
  · intro s rest hsel hrest hq
    unfold runWalk at hq
    simp only [List.mem_cons] at hq
    rcases hq with hq | hq
    · cases hq
    · rcases (hmain _ hq).1 (s :: rest) rfl with hlen | ⟨s2, rest2, heq, hs2⟩
      · simp at hlen
        exact hrest hlen
      · injection heq with h1 h2
        subst h1
        exact hsel hs2

/-- Witness for C7: in a tree whose top-level directory b is not allow-listed
but contains a subdirectory c, ReadDir is never called on the descendant
path b/c. -/
theorem c7_allowlist_skip_witness :
    WalkEvent.readDirCall [str "b", str "c"] ∉
      (runWalk (syncWalkFn [str "a"]) 4
        (FNode.mk ⟨str "/", str "/", 128, 0, str "", true⟩
          (some [FNode.mk ⟨str "/b", str "b", 128, 0, str "", true⟩
            (some [FNode.mk ⟨str "/b/c", str "c", 128, 0, str "", true⟩ (some [])])]))).2 :=
  (c7_allowlist_skip [str "a"] 4
      (FNode.mk ⟨str "/", str "/", 128, 0, str "", true⟩
        (some [FNode.mk ⟨str "/b", str "b", 128, 0, str "", true⟩
          (some [FNode.mk ⟨str "/b/c", str "c", 128, 0, str "", true⟩ (some [])])]))).2.2
    (str "b") [str "c"] (by decide) (by decide)

/-- The names (final path segments) of the visit events whose path has
exactly the given length, in log order: for a directory at depth n these are
the visits of its direct children when the length is n + 1. -/
def visitNamesAt (n : Nat) (evs : List WalkEvent) : List Str :=
  evs.filterMap (fun ev =>
    match ev with
    | WalkEvent.visit q _ _ => if q.length = n then q.getLast? else none
    | _ => none)

/-- Events whose paths are all strictly longer than n contribute no visit
names at depth n. -/
theorem visitNamesAt_nil_of_deep (n : Nat) (evs : List WalkEvent)
    (h : ∀ ev ∈ evs, n < (eventPath ev).length) : visitNamesAt n evs = [] := by
  induction evs with
  | nil => rfl
  | cons ev rest ih =>
    have hev := h ev (List.mem_cons_self ev rest)
    have hrest : ∀ e ∈ rest, n < (eventPath e).length :=
      fun e he => h e (List.mem_cons_of_mem ev he)
    unfold visitNamesAt
    rw [List.filterMap_cons]
    match ev with
    | WalkEvent.statCall q => exact ih hrest
    | WalkEvent.readDirCall q => exact ih hrest
    | WalkEvent.visit q i f =>
      have : q.length ≠ n := by
        simp only [eventPath] at hev
        omega
      simp only [if_neg this]
      exact ih hrest

/-- Depth and child-name accounting for the child loop: when each child walk
produces only events at depth beyond the parent and at most its own single
visit at child depth, the loop's events do the same and the child visit names
form a sublist of the child names in loop order. -/
theorem walkKids_depth_visits (step : List Str → FNode → WalkRes × List WalkEvent)
    (path : List Str)
    (hstep : ∀ c,
      (∀ ev ∈ (step (path ++ [nodeName c]) c).2, path.length + 1 ≤ (eventPath ev).length)
      ∧ (visitNamesAt (path.length + 1) ((step (path ++ [nodeName c]) c).2)).Sublist
          [nodeName c]) :
    ∀ l : List FNode,
      (∀ ev ∈ (walkKids step path l).2, path.length + 1 ≤ (eventPath ev).length)
      ∧ (visitNamesAt (path.length + 1) ((walkKids step path l).2)).Sublist
          (l.map nodeName) := by
  intro l
  induction l with
  | nil =>
    refine ⟨?_, ?_⟩
    · intro ev hev; simp [walkKids] at hev
    · simp [walkKids, visitNamesAt]
  | cons c rest ih =>
    have hc := hstep c
    unfold walkKids
    by_cases h1 : (step (path ++ [nodeName c]) c).1 = WalkRes.ok
    · rw [if_pos h1]
      refine ⟨?_, ?_⟩
      · intro ev hev
        rcases List.mem_append.mp hev with h | h
        · exact hc.1 ev h
        · exact ih.1 ev h
      · show (visitNamesAt (path.length + 1) (_ ++ _)).Sublist _
        unfold visitNamesAt
        rw [List.filterMap_append]
        exact List.Sublist.append hc.2 ih.2
    · rw [if_neg h1]
      by_cases h2 : ((nodeInfo c).isdir
          && decide ((step (path ++ [nodeName c]) c).1 = WalkRes.skipDir)) = true
      · rw [if_pos h2]
        refine ⟨?_, ?_⟩
        · intro ev hev
          rcases List.mem_append.mp hev with h | h
          · exact hc.1 ev h
          · exact ih.1 ev h
        · show (visitNamesAt (path.length + 1) (_ ++ _)).Sublist _
          unfold visitNamesAt
          rw [List.filterMap_append]
          exact List.Sublist.append hc.2 ih.2
      · rw [if_neg h2]
        refine ⟨hc.1, ?_⟩
        refine hc.2.trans ?_
        exact List.Sublist.cons₂ (nodeName c) (List.nil_sublist _)

/-- Every event of a walk lies at or below the start depth, and the walk
contributes at most one visit at its own depth, named by its final path
segment. -/
theorem walkNodeAux_depth_ownVisit (wf : List Str → Option MetadataFile → Bool → WalkRes) :
    ∀ (fuel : Nat) (path : List Str) (t : FNode),
      (∀ ev ∈ (walkNodeAux wf fuel path t).2, path.length ≤ (eventPath ev).length)
      ∧ (visitNamesAt path.length ((walkNodeAux wf fuel path t).2)).Sublist
          path.getLast?.toList := by
  intro fuel
  induction fuel with
  | zero =>
    intro path t
    refine ⟨?_, ?_⟩
    · intro ev hev; simp [walkNodeAux] at hev
    · simp [walkNodeAux, visitNamesAt]
  | succ fuel ih =>
    intro path t
    obtain ⟨info, children⟩ := t
    rw [walkNodeAux]
    simp only [nodeInfo, nodeKids]
    by_cases hfile : info.isdir = false
    · rw [if_pos hfile]
      refine ⟨?_, ?_⟩
      · intro ev hev
        simp at hev
        subst hev
        simp [eventPath]
      · simp [visitNamesAt, List.filterMap_cons]
        cases hgl : path.getLast? <;> simp [hgl]
    · rw [if_neg hfile]
      cases children with
      | none =>
        refine ⟨?_, ?_⟩
        · intro ev hev
          simp at hev
          rcases hev with hev | hev <;> (subst hev; simp [eventPath])
        · simp [visitNamesAt, List.filterMap_cons]
          cases hgl : path.getLast? <;> simp [hgl]
      | some cs =>
        dsimp only
        by_cases hok : wf path (some info) false = WalkRes.ok
        · rw [if_pos hok]
          have hkids := walkKids_depth_visits (fun p c => walkNodeAux wf fuel p c) path
            (fun c => by
              have h := ih (path ++ [nodeName c]) c
              refine ⟨?_, ?_⟩
              · intro ev hev
                have := h.1 ev hev
                simpa using this
              · have h2 := h.2
                rw [List.getLast?_concat] at h2
                simpa using h2)
            (List.insertionSort (fun a b : FNode => nodeName a ≤ nodeName b) cs)
          refine ⟨?_, ?_⟩
          · intro ev hev
            simp only [List.mem_cons] at hev
            rcases hev with hev | hev | hev
            · subst hev; simp [eventPath]
            · subst hev; simp [eventPath]
            · have := hkids.1 ev hev
              omega
          · show (visitNamesAt path.length
                (WalkEvent.readDirCall path :: WalkEvent.visit path (some info) false :: _)).Sublist _
            unfold visitNamesAt
            rw [List.filterMap_cons, List.filterMap_cons]
            simp only [if_pos rfl]
            have hdeep : visitNamesAt path.length
                ((walkKids (fun p c => walkNodeAux wf fuel p c) path
                  (List.insertionSort (fun a b : FNode => nodeName a ≤ nodeName b) cs)).2) = [] := by
              apply visitNamesAt_nil_of_deep
              intro ev hev
              have := hkids.1 ev hev
              omega
            unfold visitNamesAt at hdeep
            rw [hdeep]
            cases hp : path.getLast? with
            | none => simp
            | some x => simp
        · rw [if_neg hok]
          refine ⟨?_, ?_⟩
          · intro ev hev
            simp at hev
            rcases hev with hev | hev <;> (subst hev; simp [eventPath])
          · simp [visitNamesAt, List.filterMap_cons]
            cases hgl : path.getLast? <;> simp [hgl]

instance : IsTotal FNode (fun a b : FNode => nodeName a ≤ nodeName b) :=
  ⟨fun a b => le_total (nodeName a) (nodeName b)⟩

instance : IsTrans FNode (fun a b : FNode => nodeName a ≤ nodeName b) :=
  ⟨fun _ _ _ hab hbc => le_trans hab hbc⟩

/-- C9 counterexample: a directory whose listing carries two entries with the
same name "a" (as an HTML index can produce) is visited with the callback
invoked twice on the name "a", which is not strictly ascending. -/
theorem c9_counterexample :
    ¬ List.Pairwise (fun a b : Str => a < b)
      (visitNamesAt 1
        ((walkNodeAux (fun _ _ _ => WalkRes.ok) 2 []
          (FNode.mk ⟨str "/", str "/", 128, 0, str "", true⟩
            (some [FNode.mk ⟨str "/a", str "a", 1, 0, str "", false⟩ none,
                   FNode.mk ⟨str "/a", str "a", 2, 0, str "", false⟩ none])))).2) := by
  decide

/-- C9 as amended: for a directory whose ReadDir succeeded and whose visit
callback returned nil, both walkers (their walk bodies are identical) visit
the children in ascending — nondecreasing — name order, and the order is
strictly ascending whenever the children's names are pairwise distinct. -/
theorem c9_child_visit_order (wf : List Str → Option MetadataFile → Bool → WalkRes)
    (fuel : Nat) (path : List Str) (info : MetadataFile) (cs : List FNode)
    (hdir : info.isdir = true) (hok : wf path (some info) false = WalkRes.ok) :
    List.Pairwise (fun a b : Str => a ≤ b)
      (visitNamesAt (path.length + 1)
        ((walkNodeAux wf (fuel + 1) path (FNode.mk info (some cs))).2))
    ∧ ((cs.map nodeName).Nodup →
      List.Pairwise (fun a b : Str => a < b)
        (visitNamesAt (path.length + 1)
          ((walkNodeAux wf (fuel + 1) path (FNode.mk info (some cs))).2))) := by
  have hnotfile : ¬ info.isdir = false := by simp [hdir]
  have hsorted : List.Pairwise (fun a b : FNode => nodeName a ≤ nodeName b)
      (List.insertionSort (fun a b : FNode => nodeName a ≤ nodeName b) cs) :=
    List.sorted_insertionSort _ cs
  have hnames : List.Pairwise (fun a b : Str => a ≤ b)
      ((List.insertionSort (fun a b : FNode => nodeName a ≤ nodeName b) cs).map nodeName) :=
    List.pairwise_map.mpr hsorted
  have hkids := walkKids_depth_visits (fun p c => walkNodeAux wf fuel p c) path
    (fun c => by
      have h := walkNodeAux_depth_ownVisit wf fuel (path ++ [nodeName c]) c
      refine ⟨?_, ?_⟩
      · intro ev hev
        have := h.1 ev hev
        simpa using this
      · have h2 := h.2
        rw [List.getLast?_concat] at h2
        simpa using h2)
    (List.insertionSort (fun a b : FNode => nodeName a ≤ nodeName b) cs)
  have hreduce : visitNamesAt (path.length + 1)
      ((walkNodeAux wf (fuel + 1) path (FNode.mk info (some cs))).2)
      = visitNamesAt (path.length + 1)
        ((walkKids (fun p c => walkNodeAux wf fuel p c) path
          (List.insertionSort (fun a b : FNode => nodeName a ≤ nodeName b) cs)).2) := by
    rw [walkNodeAux]
    simp only [nodeInfo, nodeKids]
    rw [if_neg hnotfile]
    rw [if_pos hok]
    show visitNamesAt (path.length + 1)
        (WalkEvent.readDirCall path :: WalkEvent.visit path (some info) false :: _) = _
    unfold visitNamesAt
    rw [List.filterMap_cons, List.filterMap_cons]
    have hlen : ¬ path.length = path.length + 1 := by omega
    simp only [if_neg hlen]
  have hsub := hkids.2
  rw [← hreduce] at hsub
  refine ⟨List.Pairwise.sublist hsub hnames, ?_⟩
  intro hnodup
  have hperm : ((List.insertionSort (fun a b : FNode => nodeName a ≤ nodeName b) cs).map
      nodeName).Perm (cs.map nodeName) :=
    (List.perm_insertionSort _ cs).map nodeName
  have hnodup2 : ((List.insertionSort (fun a b : FNode => nodeName a ≤ nodeName b) cs).map
      nodeName).Nodup := hperm.nodup_iff.mpr hnodup
  have hlt : List.Pairwise (fun a b : Str => a < b)
      ((List.insertionSort (fun a b : FNode => nodeName a ≤ nodeName b) cs).map nodeName) :=
    (hnames.and hnodup2).imp (fun h2 => lt_of_le_of_ne h2.1 h2.2)
  exact List.Pairwise.sublist hsub hlt

/-- Witness for C9: two distinct child names listed out of order are visited
in strictly ascending name order. -/
theorem c9_child_visit_order_witness :
    List.Pairwise (fun a b : Str => a < b)
      (visitNamesAt 1
        ((walkNodeAux (fun _ _ _ => WalkRes.ok) 2 []
          (FNode.mk ⟨str "/", str "/", 128, 0, str "", true⟩
            (some [FNode.mk ⟨str "/b", str "b", 1, 0, str "", false⟩ none,
                   FNode.mk ⟨str "/a", str "a", 2, 0, str "", false⟩ none])))).2) :=
  (c9_child_visit_order (fun _ _ _ => WalkRes.ok) 1 []
      ⟨str "/", str "/", 128, 0, str "", true⟩
      [FNode.mk ⟨str "/b", str "b", 1, 0, str "", false⟩ none,
       FNode.mk ⟨str "/a", str "a", 2, 0, str "", false⟩ none]
      rfl rfl).2 (by decide)

/-- Model of MetadataCrawler.Stat (metadata.go): try the active mirrors in
order with head; the named return values start as nil; a success returns the
file with a nil error, a failure leaves the error in the named variable for
the next iteration; with no mirror at all the loop body never runs and both
named values are still nil. `headFn` abstracts one head request per mirror. -/
def statModel (headFn : Str → Except Str MetadataFile) :
    List Str → Option MetadataFile × Option Str
  | [] => (none, none)
  | m :: rest =>
    match headFn m with
    | Except.ok f => (some f, none)
    | Except.error e =>
      match rest with
      | [] => (none, some e)
      | _ => statModel headFn rest

/-- Model of MetadataCrawler.ReadDir (metadata.go): the same mirror loop as
Stat over get; the first successful mirror's entries are returned with a nil
error; no mirror at all returns the nil slice and nil error. -/
def readDirModel (getFn : Str → Except Str (List MetadataFile)) :
    List Str → Option (List MetadataFile) × Option Str
  | [] => (none, none)
  | m :: rest =>
    match getFn m with
    | Except.ok fs => (some fs, none)
    | Except.error e =>
      match rest with
      | [] => (none, some e)
      | _ => readDirModel getFn rest

/-- What Walk does with the Stat outcome (metadata.go Walk): a non-nil error
sends the error to the callback without recursing; otherwise the recursion is
entered with whatever FileInfo Stat returned, even a nil one. -/
inductive WalkEntry where
  | visitWithError
  | recurse (info : Option MetadataFile)
deriving DecidableEq, Repr

/-- The branch Walk takes on the Stat result. -/
def walkDispatch (statRes : Option MetadataFile × Option Str) : WalkEntry :=
  match statRes.2 with
  | some _ => WalkEntry.visitWithError
  | none => WalkEntry.recurse statRes.1

/-- C10. With an empty active mirror list, Stat returns a nil FileInfo with a
nil error and ReadDir a nil slice with a nil error, although no request was
attempted (headFn and getFn are never consulted); Walk then enters its
recursion carrying the nil FileInfo instead of visiting with an error. By
contrast, a failing mirror produces a non-nil error. -/
theorem c10_empty_mirrors (headFn : Str → Except Str MetadataFile)
    (getFn : Str → Except Str (List MetadataFile)) :
    statModel headFn [] = (none, none)
    ∧ readDirModel getFn [] = (none, none)
    ∧ walkDispatch (statModel headFn []) = WalkEntry.recurse none
    ∧ (∀ m e, headFn m = Except.error e → statModel headFn [m] = (none, some e)) := by
  refine ⟨rfl, rfl, rfl, ?_⟩
  intro m e he
  simp [statModel, he]

/-- Witness for C10 at a concrete failing mirror. -/
theorem c10_empty_mirrors_witness :
    statModel (fun _ => Except.error (str "Head /x: 404")) [str "https://m1/"]
      = (none, some (str "Head /x: 404")) :=
  (c10_empty_mirrors (fun _ => Except.error (str "Head /x: 404"))
      (fun _ => Except.error (str "Head /x: 404"))).2.2.2
    (str "https://m1/") (str "Head /x: 404") rfl

/-- C5 counterexample: the files table has no isDirectory column, so a
directory record (isdir = true) reads back with isdir = false. -/
theorem c5_counterexample :
    pickFirstFile (updateToDB [] ⟨str "/a", str "a", 1, 2, str "e", true⟩) (str "/a")
      ≠ some ⟨str "/a", str "a", 1, 2, str "e", true⟩ := by decide

/-- C5 as amended: writing a FileRecord and reading it back by path preserves
name, size, modified and etag, while isDirectory always reads back false
because the schema does not persist it. -/
theorem c5_roundtrip (db : DB) (f : MetadataFile) :
    pickFirstFile (updateToDB db f) f.path
      = some ⟨f.path, f.name, f.size, f.modified, f.etag, false⟩ := by
  unfold pickFirstFile updateToDB
  have h : f.path = (rowOfFile f).path := rfl
  rw [h, dbLookup_dbUpsert_self db (rowOfFile f)]
  rfl

/-- The configuration fields the reconcile pipeline reads (config.go Config),
with AlistURL already normalized by Validate to end in a slash. -/
structure SyncConfig where
  mediaDir : Str
  downloadDir : Str
  purge : Bool
  alistURL : Str
  alistStrmRootPath : Str
deriving DecidableEq, Repr

/-- The mutable state the pipeline touches: one filesystem keyed by absolute
path, the download index (DownloadDir/.metadata.db) and the served index
(MediaDir/.metadata.db). -/
structure MState where
  fs : FS
  downloadDB : DB
  servedDB : DB
deriving DecidableEq, Repr

/-- Insert a file name into the per-directory name-set map (a Go map of
string sets; the model keeps insertion order, membership is what counts). -/
def addToDirMap (m : List (Str × List Str)) (dir fname : Str) : List (Str × List Str) :=
  match m.find? (fun e => e.1 == dir) with
  | none => m ++ [(dir, [fname])]
  | some _ => m.map (fun e =>
      if e.1 == dir then (e.1, if fname ∈ e.2 then e.2 else e.2 ++ [fname]) else e)

/-- The dir-to-names grouping compareMetadata builds over the cached files:
every file for the full map, only .strm names for the strm map (the source
fills both maps in one loop over the same files). -/
def buildDirMap (files : List MetadataFile) (onlyStrm : Bool) : List (Str × List Str) :=
  files.foldl (fun m file =>
    let dir := goDir file.path
    let fname := goBase file.path
    if onlyStrm then
      if goExt fname == str ".strm" then addToDirMap m dir fname else m
    else addToDirMap m dir fname) []

/-- The .strm exclusion pass of compareMetadata (config.go): for each cached
placeholder, read it from the download cache, unescape %20, parse the URL and
strip the default strm root path from its path; with purge enabled, a target
absent from the alist index excludes the placeholder. A missing cache file is
skipped silently; parsing is total in the model (see urlParse), so the
parse-error exclusion branch has no counterpart; the valids and rootDirMap
counters feed logging only and are omitted. -/
def strmToSkip (cfg : SyncConfig) (fs : FS) (smap : List (Str × List Str))
    (alistPaths : List Str) : List Str :=
  smap.foldl (fun acc entry =>
    entry.2.foldl (fun acc strm =>
      let fpath := goJoin entry.1 strm
      match fsRead fs (goJoin cfg.downloadDir fpath) with
      | none => acc
      | some p =>
        let s := goReplaceAll (goTrimSpace p) (str "%20") (str " ")
        let u := urlParse s
        let linkpath := str "/" ++ goTrimPre (goTrimPre (str "/" ++ goTrimPre u.path (str "/"))
          defaultAlistStrmRootPath) (str "/")
        if linkpath ∈ alistPaths then acc
        else if cfg.purge then acc ++ [fpath]
        else acc) acc) []

/-- compareMetadata (config.go): group the cached files by directory, compute
the excluded placeholders, and return every cached path not excluded. The
output order follows the grouping maps; callers treat it as a set. -/
def compareMetadata (cfg : SyncConfig) (files : List MetadataFile)
    (alistPaths : List Str) (fs : FS) : List Str :=
  let fullMap := buildDirMap files false
  let smap := buildDirMap files true
  let skip := strmToSkip cfg fs smap alistPaths
  fullMap.foldl (fun acc entry =>
    entry.2.foldl (fun acc file =>
      let fpath := goJoin entry.1 file
      if fpath ∈ skip then acc else acc ++ [fpath]) acc) []

/-- deleteFile (metadata.go): remove the file at the row's raw path — a
missing file is the tolerated not-exist case — then delete and commit its
index row. -/
def deleteFileModel (fs : FS) (db : DB) (f : FileRow) : FS × DB × List MutOp :=
  let removeLog := match fsRead fs f.path with
    | some _ => [MutOp.fileRemove f.path]
    | none => []
  (fsRemove fs f.path, dbDelete db f.path, removeLog ++ [MutOp.indexDelete f.path])

/-- The row-update condition of prepareMetadataUpdate (config.go): a .strm
named remote row always updates; otherwise update when no served row exists
or the remote row is strictly newer with a size or etag difference. -/
def needsUpdate (remoteFile : MetadataFile) (localFile : Option MetadataFile) : Bool :=
  goExt remoteFile.name == str ".strm"
  || match localFile with
     | none => true
     | some l => decide (l.modified < remoteFile.modified)
         && (decide (remoteFile.size ≠ l.size) || decide (remoteFile.etag ≠ l.etag))

/-- The deletion scan of prepareMetadataUpdate (config.go), one served-index
row at a time in row order: a row absent from the preserve set is deleted —
the file at the raw row path, then the row (deleteDirIfEmpty only touches
empty directories, which the file map does not represent, so it leaves the
map unchanged). -/
def prepareDeletes (filesToPreserve : List Str) :
    List FileRow → FS × DB × List MutOp → FS × DB × List MutOp
  | [], acc => acc
  | f :: rest, acc =>
    if f.path ∈ filesToPreserve then prepareDeletes filesToPreserve rest acc
    else
      let d := deleteFileModel acc.1 acc.2.1 f
      prepareDeletes filesToPreserve rest (d.1, d.2.1, acc.2.2 ++ d.2.2)

/-- The update-set scan of prepareMetadataUpdate (config.go) over the
preserve set: paths whose download row exists and satisfies needsUpdate
against the served row (looked up in localMap, the full pre-deletion row
list) contribute the download row's path. -/
def collectNeedUpdate (downloadDB rows : DB) : List Str → List Str → List Str
  | [], acc => acc
  | path :: rest, acc =>
    match pickFirstFile downloadDB path with
    | none => collectNeedUpdate downloadDB rows rest acc
    | some remoteFile =>
      if needsUpdate remoteFile (pickFirstFile rows path) then
        collectNeedUpdate downloadDB rows rest (acc ++ [remoteFile.path])
      else collectNeedUpdate downloadDB rows rest acc

/-- prepareMetadataUpdate (config.go): run the deletion scan over the served
rows, then collect the update set. -/
def prepareMetadataUpdate (cfg : SyncConfig) (filesToPreserve : List Str)
    (st : MState) : List Str × MState × List MutOp :=
  let rows := st.servedDB
  let deleteStep := prepareDeletes filesToPreserve rows (st.fs, st.servedDB, ([] : List MutOp))
  let needUpdate := collectNeedUpdate st.downloadDB rows filesToPreserve []
  (needUpdate, ⟨deleteStep.1, st.downloadDB, deleteStep.2.1⟩, deleteStep.2.2)

/-- The .strm rewrite of one placeholder (config.go syncMetadata): unescape
%20, re-serialize through url.Parse, and when the line starts with the
default endpoint, strip the default strm root path out of the URL path, graft
the configured root path on, and point the URL at the configured endpoint. -/
def rewriteStrmContent (cfg : SyncConfig) (p : Str) : Str :=
  let s := goReplaceAll (goTrimSpace p) (str "%20") (str " ")
  let u := urlParse s
  let s2 := urlString u
  if goHasPre s2 defaultAlistEndpoint then
    let o := urlParse cfg.alistURL
    let rel1 := str "/" ++ goTrimPre (goTrimPre (str "/" ++ goTrimPre u.path (str "/"))
      defaultAlistStrmRootPath) (str "/")
    let rel2 := str "/" ++ goTrimPre cfg.alistStrmRootPath (str "/") ++ str "/"
      ++ goTrimPre rel1 (str "/")
    urlString { scheme := o.scheme, host := o.host, path := rel2 }
  else s2

/-- One placeholder write of syncMetadata (config.go): read the cached
placeholder (a read failure aborts the phase), rewrite it and write the
single line plus trailing newline into the served directory, with no index
transaction. -/
def strmStep (cfg : SyncConfig) (acc : MState × List MutOp) (strm : Str) :
    Except Unit (MState × List MutOp) :=
  let fpath := goJoin cfg.downloadDir strm
  match fsRead acc.1.fs fpath with
  | none => Except.error ()
  | some p =>
    let s := rewriteStrmContent cfg p
    let target := goJoin cfg.mediaDir strm
    Except.ok (⟨fsWrite acc.1.fs target (s ++ str "\n"), acc.1.downloadDB, acc.1.servedDB⟩,
      acc.2 ++ [MutOp.byteWrite target])

/-- One regular-file publication of syncMetadata via copyFile (config.go): a
path without a download row is skipped; otherwise the cached bytes are copied
into the served directory and the served row upserted and committed as one
transaction (the trailing Rollback after Commit is a no-op); a missing cached
file aborts the phase. -/
def otherStep (cfg : SyncConfig) (acc : MState × List MutOp) (file : Str) :
    Except Unit (MState × List MutOp) :=
  let fpath := goJoin cfg.downloadDir file
  match pickFirstFile acc.1.downloadDB file with
  | none => Except.ok acc
  | some remoteFile =>
    match fsRead acc.1.fs fpath with
    | none => Except.error ()
    | some content =>
      let target := goJoin cfg.mediaDir file
      Except.ok (⟨fsWrite acc.1.fs target content, acc.1.downloadDB,
          dbUpsert acc.1.servedDB (rowOfFile remoteFile)⟩,
        acc.2 ++ [MutOp.byteWrite target, MutOp.indexUpsert remoteFile.path])

/-- syncMetadata (config.go): split the update set into placeholders and
other files by extension, publish every placeholder, then every other file. -/
def syncMetadata (cfg : SyncConfig) (filesToUpdate : List Str) (st : MState) :
    Except Unit (MState × List MutOp) :=
  let strmList := filesToUpdate.filter (fun p => goExt (goBase p) == str ".strm")
  let otherList := filesToUpdate.filter (fun p => !(goExt (goBase p) == str ".strm"))
  match List.foldlM (strmStep cfg) (st, ([] : List MutOp)) strmList with
  | Except.error e => Except.error e
  | Except.ok st1 => List.foldlM (otherStep cfg) st1 otherList

/-- The per-leaf download pipeline of MetadataCrawler.Sync (metadata.go):
look the leaf up in the download index, treat the row as absent when the
cached file is missing on disk, then run download with the Sync predicate.
The walk is flattened to the discovered leaf list in walk order, every
modelled request succeeds with the remote's data, and the worker pool is
serialized; the per-leaf decision logic is verbatim. The predicate also
records the leaf into the remote-seen map, which only the commented-out
purge block would read, so the map is omitted. -/
def syncLeaf (downloadDir : Str) (r : RemoteLeaf) (st : MState) : MState × List MutOp :=
  let oldFile0 := pickFirstFile st.downloadDB r.path
  let oldFile := match oldFile0 with
    | some o => match fsRead st.fs (goJoin downloadDir o.path) with
        | some _ => some o
        | none => none
    | none => none
  let d := downloadModel downloadDir r (downloadFilter oldFile) st.fs st.downloadDB
  (⟨d.1, d.2.1, st.servedDB⟩, d.2.2)

/-- The download phase of Sync over all discovered leaves, in walk order. -/
def syncDownload (downloadDir : Str) : List RemoteLeaf → MState → MState × List MutOp
  | [], st => (st, [])
  | r :: rest, st =>
    let s := syncLeaf downloadDir r st
    let tail := syncDownload downloadDir rest s.1
    (tail.1, s.2 ++ tail.2)

/-- One full reconcile cycle as Config.Run sequences it in full mode:
download sync, compare over LocalFiles (the download-index rows), prepare,
then the serve-side sync. -/
def runCycle (cfg : SyncConfig) (leaves : List RemoteLeaf) (alistPaths : List Str)
    (st : MState) : Except Unit (MState × List MutOp) :=
  let d := syncDownload cfg.downloadDir leaves st
  let preserve := compareMetadata cfg (listFiles d.1.downloadDB) alistPaths d.1.fs
  let p := prepareMetadataUpdate cfg preserve d.1
  match syncMetadata cfg p.1 p.2.1 with
  | Except.error e => Except.error e
  | Except.ok s => Except.ok (s.1, d.2 ++ p.2.2 ++ s.2)

/-- Two directories neither of which is a prefix of the other; keys joined
under them can never collide. -/
def dirsSeparated (a b : Str) : Prop :=
  a.isPrefixOf b = false ∧ b.isPrefixOf a = false

/-- A logical path fit for the given configuration: slash-prefixed, and
lying under neither the download nor the media directory, so that index
paths, cache keys and served keys occupy three disjoint key spaces. -/
def goodPath (cfg : SyncConfig) (p : Str) : Prop :=
  goHasPre p (str "/") = true
  ∧ cfg.downloadDir.isPrefixOf p = false ∧ cfg.mediaDir.isPrefixOf p = false

/-- The directory-shape hypotheses of the pipeline lemmas: neither directory
is the root and neither is nested in the other. -/
def goodDirs (cfg : SyncConfig) : Prop :=
  cfg.mediaDir ≠ str "/" ∧ cfg.downloadDir ≠ str "/"
  ∧ dirsSeparated cfg.mediaDir cfg.downloadDir

/-- Joining a slash-prefixed path under a non-root directory is plain
concatenation. -/
theorem goJoin_eq_append (a q : Str) (ha : a ≠ str "/") (hq : goHasPre q (str "/") = true) :
    goJoin a q = a ++ q := by
  unfold goJoin
  rw [if_neg ha, if_pos hq]

/-- Keys joined under separated directories never collide. -/
theorem goJoin_ne_of_sep (a b q q2 : Str) (ha : a ≠ str "/") (hb : b ≠ str "/")
    (hsep : dirsSeparated a b) (hq : goHasPre q (str "/") = true)
    (hq2 : goHasPre q2 (str "/") = true) : goJoin a q ≠ goJoin b q2 := by
  rw [goJoin_eq_append a q ha hq, goJoin_eq_append b q2 hb hq2]
  intro h
  rcases List.append_eq_append_iff.mp h with ⟨t, hbt, _⟩ | ⟨t, hat, _⟩
  · have : a.isPrefixOf b = true := List.isPrefixOf_iff_prefix.mpr ⟨t, hbt.symm⟩
    rw [hsep.1] at this
    cases this
  · have : b.isPrefixOf a = true := List.isPrefixOf_iff_prefix.mpr ⟨t, hat.symm⟩
    rw [hsep.2] at this
    cases this

/-- Joining under one directory is injective on slash-prefixed paths. -/
theorem goJoin_inj (a q q2 : Str) (hq : goHasPre q (str "/") = true)
    (hq2 : goHasPre q2 (str "/") = true) (h : goJoin a q = goJoin a q2) : q = q2 := by
  unfold goJoin at h
  rw [if_pos hq, if_pos hq2] at h
  exact List.append_cancel_left h

/-- A path not lying under a non-root directory differs from every key joined
under that directory. -/
theorem raw_ne_join (a p q : Str) (ha : a ≠ str "/") (hpre : a.isPrefixOf p = false)
    (hq : goHasPre q (str "/") = true) : p ≠ goJoin a q := by
  rw [goJoin_eq_append a q ha hq]
  intro h
  have : a.isPrefixOf p = true := List.isPrefixOf_iff_prefix.mpr ⟨q, h.symm⟩
  rw [hpre] at this
  cases this

/-- The placeholder phase of syncMetadata writes only served keys of its own
list, and leaves both indexes untouched. -/
theorem strmFold_preserves (cfg : SyncConfig) :
    ∀ (L : List Str) (acc out : MState × List MutOp),
      List.foldlM (strmStep cfg) acc L = Except.ok out →
      (∀ k, (∀ q ∈ L, goJoin cfg.mediaDir q ≠ k) → fsRead out.1.fs k = fsRead acc.1.fs k)
      ∧ out.1.downloadDB = acc.1.downloadDB ∧ out.1.servedDB = acc.1.servedDB := by
  intro L
  induction L with
  | nil =>
    intro acc out hrun
    rw [List.foldlM_nil] at hrun
    injection hrun with h
    subst h
    exact ⟨fun k _ => rfl, rfl, rfl⟩
  | cons q L ih =>
    intro acc out hrun
    rw [List.foldlM_cons] at hrun
    cases hread : fsRead acc.1.fs (goJoin cfg.downloadDir q) with
    | none =>
      have : strmStep cfg acc q = Except.error () := by
        simp only [strmStep, hread]
      rw [this] at hrun
      cases hrun
    | some cq =>
      have hstep : strmStep cfg acc q = Except.ok
          (⟨fsWrite acc.1.fs (goJoin cfg.mediaDir q) (rewriteStrmContent cfg cq ++ str "\n"),
            acc.1.downloadDB, acc.1.servedDB⟩,
            acc.2 ++ [MutOp.byteWrite (goJoin cfg.mediaDir q)]) := by
        simp only [strmStep, hread]
      rw [hstep] at hrun
      have hrun2 : List.foldlM (strmStep cfg)
          (⟨fsWrite acc.1.fs (goJoin cfg.mediaDir q) (rewriteStrmContent cfg cq ++ str "\n"),
            acc.1.downloadDB, acc.1.servedDB⟩,
            acc.2 ++ [MutOp.byteWrite (goJoin cfg.mediaDir q)]) L = Except.ok out := hrun
      have hres := ih _ out hrun2
      refine ⟨?_, hres.2.1, hres.2.2⟩
      intro k hk
      have h1 := hres.1 k (fun q2 hq2 => hk q2 (List.mem_cons_of_mem q hq2))
      rw [h1]
      show fsRead (fsWrite acc.1.fs (goJoin cfg.mediaDir q) _) k = fsRead acc.1.fs k
      exact fsRead_fsWrite_ne acc.1.fs (goJoin cfg.mediaDir q) _ k
        (fun h => hk q (List.mem_cons_self q L) h.symm)

/-- The regular-file phase of syncMetadata writes only served keys of its own
list and never touches the download index. -/
theorem otherFold_preserves (cfg : SyncConfig) :
    ∀ (L : List Str) (acc out : MState × List MutOp),
      List.foldlM (otherStep cfg) acc L = Except.ok out →
      (∀ k, (∀ q ∈ L, goJoin cfg.mediaDir q ≠ k) → fsRead out.1.fs k = fsRead acc.1.fs k)
      ∧ out.1.downloadDB = acc.1.downloadDB := by
  intro L
  induction L with
  | nil =>
    intro acc out hrun
    rw [List.foldlM_nil] at hrun
    injection hrun with h
    subst h
    exact ⟨fun k _ => rfl, rfl⟩
  | cons q L ih =>
    intro acc out hrun
    rw [List.foldlM_cons] at hrun
    cases hpick : pickFirstFile acc.1.downloadDB q with
    | none =>
      have hstep : otherStep cfg acc q = Except.ok acc := by
        simp only [otherStep, hpick]
      rw [hstep] at hrun
      have hres := ih acc out hrun
      refine ⟨?_, hres.2⟩
      intro k hk
      exact hres.1 k (fun q2 hq2 => hk q2 (List.mem_cons_of_mem q hq2))
    | some remoteFile =>
      cases hread : fsRead acc.1.fs (goJoin cfg.downloadDir q) with
      | none =>
        have hstep : otherStep cfg acc q = Except.error () := by
          simp only [otherStep, hpick, hread]
        rw [hstep] at hrun
        cases hrun
      | some content =>
        have hstep : otherStep cfg acc q = Except.ok
            (⟨fsWrite acc.1.fs (goJoin cfg.mediaDir q) content, acc.1.downloadDB,
                dbUpsert acc.1.servedDB (rowOfFile remoteFile)⟩,
              acc.2 ++ [MutOp.byteWrite (goJoin cfg.mediaDir q),
                MutOp.indexUpsert remoteFile.path]) := by
          simp only [otherStep, hpick, hread]
        rw [hstep] at hrun
        have hres := ih _ out hrun
        refine ⟨?_, hres.2⟩
        intro k hk
        have h1 := hres.1 k (fun q2 hq2 => hk q2 (List.mem_cons_of_mem q hq2))
        rw [h1]
        show fsRead (fsWrite acc.1.fs (goJoin cfg.mediaDir q) _) k = fsRead acc.1.fs k
        exact fsRead_fsWrite_ne acc.1.fs (goJoin cfg.mediaDir q) _ k
          (fun h => hk q (List.mem_cons_self q L) h.symm)

/-- Every placeholder of the list ends up published: the served key of each
list member holds its rewritten cache content plus newline once the
placeholder phase succeeds. -/
theorem strmFold_writes (cfg : SyncConfig) (hdirs : goodDirs cfg) :
    ∀ (L : List Str) (acc out : MState × List MutOp),
      (∀ q ∈ L, goHasPre q (str "/") = true) →
      List.foldlM (strmStep cfg) acc L = Except.ok out →
      ∀ p ∈ L, ∀ content, fsRead acc.1.fs (goJoin cfg.downloadDir p) = some content →
      fsRead out.1.fs (goJoin cfg.mediaDir p)
        = some (rewriteStrmContent cfg content ++ str "\n") := by
  intro L
  induction L with
  | nil => intro acc out _ _ p hp; cases hp
  | cons q L ih =>
    intro acc out hL hrun p hp content hcache
    rw [List.foldlM_cons] at hrun
    cases hread : fsRead acc.1.fs (goJoin cfg.downloadDir q) with
    | none =>
      have : strmStep cfg acc q = Except.error () := by
        simp only [strmStep, hread]
      rw [this] at hrun
      cases hrun
    | some cq =>
      have hstep : strmStep cfg acc q = Except.ok
          (⟨fsWrite acc.1.fs (goJoin cfg.mediaDir q) (rewriteStrmContent cfg cq ++ str "\n"),
            acc.1.downloadDB, acc.1.servedDB⟩,
            acc.2 ++ [MutOp.byteWrite (goJoin cfg.mediaDir q)]) := by
        simp only [strmStep, hread]
      rw [hstep] at hrun
      have hLtail : ∀ q2 ∈ L, goHasPre q2 (str "/") = true :=
        fun q2 h => hL q2 (List.mem_cons_of_mem q h)
      by_cases hmem : p ∈ L
      · -- solved by the tail; the cache key is untouched by the served write
        refine ih _ out hLtail hrun p hmem content ?_
        show fsRead (fsWrite acc.1.fs (goJoin cfg.mediaDir q) _) (goJoin cfg.downloadDir p)
          = some content
        rw [fsRead_fsWrite_ne]
        · exact hcache
        · exact (goJoin_ne_of_sep cfg.downloadDir cfg.mediaDir p q
            hdirs.2.1 hdirs.1 ⟨hdirs.2.2.2, hdirs.2.2.1⟩
            (hL p hp) (hL q (List.mem_cons_self q L))).symm ∘ Eq.symm
      · -- p is the head; its write persists through the tail
        have hpq : p = q := by
          rcases List.mem_cons.mp hp with h | h
          · exact h
          · exact absurd h hmem
        subst hpq
        have hcq : cq = content := by
          rw [hread] at hcache
          exact Option.some.inj hcache
        subst hcq
        have hpres := strmFold_preserves cfg L _ out hrun
        have hkey : ∀ q2 ∈ L, goJoin cfg.mediaDir q2 ≠ goJoin cfg.mediaDir p := by
          intro q2 hq2 h
          exact hmem (goJoin_inj cfg.mediaDir q2 p (hLtail q2 hq2)
            (hL p (List.mem_cons_self p L)) h ▸ hq2)
        rw [hpres.1 (goJoin cfg.mediaDir p) hkey]
        show fsRead (fsWrite acc.1.fs (goJoin cfg.mediaDir p) _) (goJoin cfg.mediaDir p) = _
        rw [fsRead_fsWrite_self]

/-- C1. End-to-end placeholder rewrite: with endpoint http://my.host/ and
configured strm root path /z, a placeholder in the update set whose cached
single line is http://xiaoya.host:5678/d/x/y is published at the same
relative served path with content http://my.host/z/x/y plus a trailing
newline, once syncMetadata succeeds. -/
theorem c1_strm_rewrite (cfg : SyncConfig) (files : List Str) (st st2 : MState)
    (log : List MutOp)
    (hurl : cfg.alistURL = str "http://my.host/")
    (hroot : cfg.alistStrmRootPath = str "/z")
    (hdirs : goodDirs cfg)
    (hL : ∀ q ∈ files, goHasPre q (str "/") = true)
    (p : Str) (hp : p ∈ files) (hext : (goExt (goBase p) == str ".strm") = true)
    (hcache : fsRead st.fs (goJoin cfg.downloadDir p)
      = some (str "http://xiaoya.host:5678/d/x/y"))
    (hok : syncMetadata cfg files st = Except.ok (st2, log)) :
    fsRead st2.fs (goJoin cfg.mediaDir p)
      = some (str "http://my.host/z/x/y" ++ str "\n") := by
  unfold syncMetadata at hok
  dsimp only at hok
  cases hfold : List.foldlM (strmStep cfg) (st, ([] : List MutOp))
      (files.filter (fun p => goExt (goBase p) == str ".strm")) with
  | error e =>
    rw [hfold] at hok
    cases hok
  | ok st1 =>
    rw [hfold] at hok
    have hmem : p ∈ files.filter (fun p => goExt (goBase p) == str ".strm") :=
      List.mem_filter.mpr ⟨hp, hext⟩
    have hLs : ∀ q ∈ files.filter (fun p => goExt (goBase p) == str ".strm"),
        goHasPre q (str "/") = true :=
      fun q hq => hL q (List.mem_filter.mp hq).1
    have h1 := strmFold_writes cfg hdirs _ (st, []) st1 hLs hfold p hmem _ hcache
    have hrw : rewriteStrmContent cfg (str "http://xiaoya.host:5678/d/x/y")
        = str "http://my.host/z/x/y" := by
      simp only [rewriteStrmContent, hurl, hroot]
      decide
    have hpres := otherFold_preserves cfg _ st1 (st2, log) hok
    have hkeys : ∀ q ∈ files.filter (fun p => !(goExt (goBase p) == str ".strm")),
        goJoin cfg.mediaDir q ≠ goJoin cfg.mediaDir p := by
      intro q hq h
      have hqf := List.mem_filter.mp hq
      have hqp : q = p := goJoin_inj cfg.mediaDir q p (hL q hqf.1) (hL p hp) h
      have h2 := hqf.2
      rw [hqp, hext] at h2
      cases h2
    have hfinal : fsRead st2.fs (goJoin cfg.mediaDir p) = fsRead st1.1.fs (goJoin cfg.mediaDir p) :=
      hpres.1 (goJoin cfg.mediaDir p) hkeys
    rw [hfinal, h1, hrw]

/-- Witness for C1 on the spec's scenario path. -/
theorem c1_strm_rewrite_witness :
    fsRead
      ((syncMetadata ⟨str "/media", str "/download", true, str "http://my.host/", str "/z"⟩
          [str "/动漫/a/b.strm"]
          ⟨[(str "/download/动漫/a/b.strm", str "http://xiaoya.host:5678/d/x/y")], [], []⟩).toOption.getD
        (⟨[], [], []⟩, [])).1.fs
      (goJoin (str "/media") (str "/动漫/a/b.strm"))
      = some (str "http://my.host/z/x/y" ++ str "\n") :=
  c1_strm_rewrite ⟨str "/media", str "/download", true, str "http://my.host/", str "/z"⟩
    [str "/动漫/a/b.strm"]
    ⟨[(str "/download/动漫/a/b.strm", str "http://xiaoya.host:5678/d/x/y")], [], []⟩
    _ _ rfl rfl (by refine ⟨by decide, by decide, by decide, by decide⟩)
    (by intro q hq; cases hq with
        | head => decide
        | tail _ h => cases h)
    (str "/动漫/a/b.strm") (List.mem_singleton.mpr rfl) (by decide) (by decide) rfl

/-- C2 at a concrete failing input. Download cache: /a/b.strm containing
http://xiaoya.host:5678/d/x/y; alist index empty; purge on; served file
present at /media/a/b.strm. Compare correctly excludes the placeholder from
the preserve set; but in normal operation placeholder writes bypass the
served index (syncMetadata writes them with no transaction), so Prepare's
delete loop sees no row and removes nothing; and even when a served-index
row for the placeholder does exist, deleteFile removes the row yet calls
os.Remove on the row's logical path /a/b.strm instead of the served path
/media/a/b.strm, so the on-disk served file survives in both cases. -/
theorem c2_purge_eval :
    (compareMetadata ⟨str "/media", str "/download", true, str "http://my.host/", str "/z"⟩
        (listFiles [⟨str "/a/b.strm", str "b.strm", 10, 5, str "E"⟩]) []
        [(str "/download/a/b.strm", str "http://xiaoya.host:5678/d/x/y"),
         (str "/media/a/b.strm", str "http://old")] = [])
    ∧ (prepareMetadataUpdate ⟨str "/media", str "/download", true, str "http://my.host/", str "/z"⟩
        []
        ⟨[(str "/download/a/b.strm", str "http://xiaoya.host:5678/d/x/y"),
          (str "/media/a/b.strm", str "http://old")],
         [⟨str "/a/b.strm", str "b.strm", 10, 5, str "E"⟩], []⟩
        = ([],
           ⟨[(str "/download/a/b.strm", str "http://xiaoya.host:5678/d/x/y"),
             (str "/media/a/b.strm", str "http://old")],
            [⟨str "/a/b.strm", str "b.strm", 10, 5, str "E"⟩], []⟩, []))
    ∧ ((prepareMetadataUpdate ⟨str "/media", str "/download", true, str "http://my.host/", str "/z"⟩
        []
        ⟨[(str "/download/a/b.strm", str "http://xiaoya.host:5678/d/x/y"),
          (str "/media/a/b.strm", str "http://old")],
         [⟨str "/a/b.strm", str "b.strm", 10, 5, str "E"⟩],
         [⟨str "/a/b.strm", str "b.strm", 10, 5, str "E"⟩]⟩).2.1.servedDB = [])
    ∧ (fsRead (prepareMetadataUpdate
          ⟨str "/media", str "/download", true, str "http://my.host/", str "/z"⟩
          []
          ⟨[(str "/download/a/b.strm", str "http://xiaoya.host:5678/d/x/y"),
            (str "/media/a/b.strm", str "http://old")],
           [⟨str "/a/b.strm", str "b.strm", 10, 5, str "E"⟩],
           [⟨str "/a/b.strm", str "b.strm", 10, 5, str "E"⟩]⟩).2.1.fs
        (str "/media/a/b.strm") = some (str "http://old")) := by
  refine ⟨by decide, by decide, by decide, by decide⟩

/-- A found row carries the looked-up path. -/
theorem dbLookup_path (db : DB) (p : Str) (r : FileRow) (h : dbLookup db p = some r) :
    r.path = p := by
  unfold dbLookup at h
  have := List.find?_some h
  simpa using this

/-- A found file carries the looked-up path. -/
theorem pickFirstFile_path (db : DB) (p : Str) (f : MetadataFile)
    (h : pickFirstFile db p = some f) : f.path = p := by
  unfold pickFirstFile at h
  cases hl : dbLookup db p with
  | none => rw [hl] at h; cases h
  | some r =>
    rw [hl] at h
    have hr := dbLookup_path db p r hl
    injection h with h2
    rw [← h2]
    exact hr

/-- Scanning a row out and writing it back is the identity. -/
theorem rowOfFile_fileOfRow (r : FileRow) : rowOfFile (fileOfRow r) = r := rfl

/-- An upsert result only holds old rows and the new one. -/
theorem mem_dbUpsert (db : DB) (r row : FileRow) (h : row ∈ dbUpsert db r) :
    row ∈ db ∨ row = r := by
  unfold dbUpsert at h
  rcases List.mem_append.mp h with h | h
  · exact Or.inl (List.mem_of_mem_filter h)
  · right
    simpa using h

/-- An HTML response makes the download a no-op (metadata.go download). -/
theorem syncLeaf_html (dd : Str) (r : RemoteLeaf) (st : MState) (h : r.isHtml = true) :
    syncLeaf dd r st = (st, []) := by
  unfold syncLeaf downloadModel
  rw [h]
  rfl

/-- A present cached file whose record defeats the predicate is skipped. -/
theorem syncLeaf_skip (dd : Str) (r : RemoteLeaf) (st : MState) (o : MetadataFile)
    (hpick : pickFirstFile st.downloadDB r.path = some o)
    (hfs : (fsRead st.fs (goJoin dd o.path)).isSome = true)
    (hfilter : downloadFilter (some o) (leafFile r) = false) :
    syncLeaf dd r st = (st, []) := by
  cases hr : fsRead st.fs (goJoin dd o.path) with
  | none => rw [hr] at hfs; cases hfs
  | some v =>
    cases hh : r.isHtml with
    | true => exact syncLeaf_html dd r st hh
    | false =>
      simp only [syncLeaf, downloadModel, hpick, hr, hh, hfilter]
      rfl

/-- After one leaf is processed, its index row defeats the predicate against
the same leaf and its cached file exists. -/
theorem syncLeaf_post (dd : Str) (r : RemoteLeaf) (st : MState) (hr : r.isHtml = false) :
    ∃ row, dbLookup (syncLeaf dd r st).1.downloadDB r.path = some row
      ∧ downloadFilter (some (fileOfRow row)) (leafFile r) = false
      ∧ (fsRead (syncLeaf dd r st).1.fs (goJoin dd r.path)).isSome = true := by
  cases hpick : pickFirstFile st.downloadDB r.path with
  | none =>
    -- no record: the predicate is true and the leaf is persisted
    simp only [syncLeaf, downloadModel, hpick, hr]
    refine ⟨rowOfFile (leafFile r), ?_, ?_, ?_⟩
    · exact dbLookup_dbUpsert_self st.downloadDB (rowOfFile (leafFile r))
    · show downloadFilter (some (leafFile r)) (leafFile r) = false
      simp [downloadFilter]
    · show (fsRead (fsWrite st.fs (goJoin dd r.path) r.content) (goJoin dd r.path)).isSome = true
      rw [fsRead_fsWrite_self]
      rfl
  | some o =>
    have hop : o.path = r.path := pickFirstFile_path _ _ _ hpick
    cases hread : fsRead st.fs (goJoin dd o.path) with
    | none =>
      -- record treated as absent: persisted
      simp only [syncLeaf, downloadModel, hpick, hread, hr]
      refine ⟨rowOfFile (leafFile r), ?_, ?_, ?_⟩
      · exact dbLookup_dbUpsert_self st.downloadDB (rowOfFile (leafFile r))
      · show downloadFilter (some (leafFile r)) (leafFile r) = false
        simp [downloadFilter]
      · show (fsRead (fsWrite st.fs (goJoin dd r.path) r.content) (goJoin dd r.path)).isSome = true
        rw [fsRead_fsWrite_self]
        rfl
    | some v =>
      cases hfilter : downloadFilter (some o) (leafFile r) with
      | true =>
        simp only [syncLeaf, downloadModel, hpick, hread, hr, hfilter]
        refine ⟨rowOfFile (leafFile r), ?_, ?_, ?_⟩
        · exact dbLookup_dbUpsert_self st.downloadDB (rowOfFile (leafFile r))
        · show downloadFilter (some (leafFile r)) (leafFile r) = false
          simp [downloadFilter]
        · show (fsRead (fsWrite st.fs (goJoin dd r.path) r.content) (goJoin dd r.path)).isSome = true
          rw [fsRead_fsWrite_self]
          rfl
      | false =>
        have hskip := syncLeaf_skip dd r st o hpick (by rw [hread]; rfl) hfilter
        rw [hskip]
        cases hlook : dbLookup st.downloadDB r.path with
        | none =>
          unfold pickFirstFile at hpick
          rw [hlook] at hpick
          cases hpick
        | some row =>
          refine ⟨row, rfl, ?_, ?_⟩
          · have heq : fileOfRow row = o := by
              unfold pickFirstFile at hpick
              rw [hlook] at hpick
              exact Option.some.inj hpick
            rw [heq]
            exact hfilter
          · show (fsRead st.fs (goJoin dd r.path)).isSome = true
            rw [← hop, hread]
            rfl

/-- One leaf only touches its own index row and cache key, and never the
served index. -/
theorem syncLeaf_frame (dd : Str) (r : RemoteLeaf) (st : MState) :
    (∀ q, q ≠ r.path → dbLookup (syncLeaf dd r st).1.downloadDB q = dbLookup st.downloadDB q)
    ∧ (∀ k, k ≠ goJoin dd r.path → fsRead (syncLeaf dd r st).1.fs k = fsRead st.fs k)
    ∧ (syncLeaf dd r st).1.servedDB = st.servedDB := by
  have hgen : (syncLeaf dd r st).1 = st
      ∨ (syncLeaf dd r st).1
        = ⟨fsWrite st.fs (goJoin dd r.path) r.content,
           dbUpsert st.downloadDB (rowOfFile (leafFile r)), st.servedDB⟩ := by
    cases hh : r.isHtml with
    | true => rw [syncLeaf_html dd r st hh]; exact Or.inl rfl
    | false =>
      cases hpick : pickFirstFile st.downloadDB r.path with
      | none =>
        simp only [syncLeaf, downloadModel, hpick, hh]
        exact Or.inr rfl
      | some o =>
        cases hread : fsRead st.fs (goJoin dd o.path) with
        | none =>
          simp only [syncLeaf, downloadModel, hpick, hread, hh]
          exact Or.inr rfl
        | some v =>
          cases hfilter : downloadFilter (some o) (leafFile r) with
          | true =>
            simp only [syncLeaf, downloadModel, hpick, hread, hh, hfilter]
            exact Or.inr rfl
          | false =>
            rw [syncLeaf_skip dd r st o hpick (by rw [hread]; rfl) hfilter]
            exact Or.inl rfl
  rcases hgen with hgen | hgen <;> rw [hgen]
  · exact ⟨fun q _ => rfl, fun k _ => rfl, rfl⟩
  · refine ⟨?_, ?_, rfl⟩
    · intro q hq
      exact dbLookup_dbUpsert_ne st.downloadDB (rowOfFile (leafFile r)) q hq
    · intro k hk
      exact fsRead_fsWrite_ne st.fs (goJoin dd r.path) r.content k hk

/-- A download pass whose every non-HTML leaf is already cached and defeats
the predicate changes nothing and writes nothing. -/
theorem syncDownload_noop (dd : Str) :
    ∀ (leaves : List RemoteLeaf) (st : MState),
      (∀ r ∈ leaves, r.isHtml = false →
        ∃ o, pickFirstFile st.downloadDB r.path = some o
          ∧ (fsRead st.fs (goJoin dd o.path)).isSome = true
          ∧ downloadFilter (some o) (leafFile r) = false) →
      syncDownload dd leaves st = (st, []) := by
  intro leaves
  induction leaves with
  | nil => intro st _; rfl
  | cons r rest ih =>
    intro st h
    have hstep : syncLeaf dd r st = (st, []) := by
      cases hh : r.isHtml with
      | true => exact syncLeaf_html dd r st hh
      | false =>
        rcases h r (List.mem_cons_self r rest) hh with ⟨o, h1, h2, h3⟩
        exact syncLeaf_skip dd r st o h1 h2 h3
    show (let s := syncLeaf dd r st
      let tail := syncDownload dd rest s.1
      (tail.1, s.2 ++ tail.2)) = (st, [])
    rw [hstep]
    have htail := ih st (fun r2 hr2 => h r2 (List.mem_cons_of_mem r hr2))
    simp only [htail]
    rfl

/-- The rows a download pass leaves in the index come from the initial index
or from the leaves themselves. -/
theorem syncDownload_rows (dd : Str) :
    ∀ (leaves : List RemoteLeaf) (st : MState) (row : FileRow),
      row ∈ (syncDownload dd leaves st).1.downloadDB →
      row ∈ st.downloadDB ∨ ∃ r ∈ leaves, row = rowOfFile (leafFile r) := by
  intro leaves
  induction leaves with
  | nil => intro st row h; exact Or.inl h
  | cons r rest ih =>
    intro st row h
    have hstep : ∀ row2, row2 ∈ (syncLeaf dd r st).1.downloadDB →
        row2 ∈ st.downloadDB ∨ row2 = rowOfFile (leafFile r) := by
      intro row2 h2
      cases hh : r.isHtml with
      | true => rw [syncLeaf_html dd r st hh] at h2; exact Or.inl h2
      | false =>
        cases hpick : pickFirstFile st.downloadDB r.path with
        | none =>
          simp only [syncLeaf, downloadModel, hpick, hh] at h2
          exact (mem_dbUpsert st.downloadDB (rowOfFile (leafFile r)) row2 h2).imp id id
        | some o =>
          cases hread : fsRead st.fs (goJoin dd o.path) with
          | none =>
            simp only [syncLeaf, downloadModel, hpick, hread, hh] at h2
            exact (mem_dbUpsert st.downloadDB (rowOfFile (leafFile r)) row2 h2).imp id id
          | some v =>
            cases hfilter : downloadFilter (some o) (leafFile r) with
            | true =>
              simp only [syncLeaf, downloadModel, hpick, hread, hh, hfilter] at h2
              exact (mem_dbUpsert st.downloadDB (rowOfFile (leafFile r)) row2 h2).imp id id
            | false =>
              rw [syncLeaf_skip dd r st o hpick (by rw [hread]; rfl) hfilter] at h2
              exact Or.inl h2
    have h3 := ih (syncLeaf dd r st).1 row h
    rcases h3 with h3 | ⟨r2, hr2, hrow⟩
    · rcases hstep row h3 with h4 | h4
      · exact Or.inl h4
      · exact Or.inr ⟨r, List.mem_cons_self r rest, h4⟩
    · exact Or.inr ⟨r2, List.mem_cons_of_mem r hr2, hrow⟩

/-- Unfolding one step of the download pass. -/
theorem syncDownload_cons_fst (dd : Str) (r : RemoteLeaf) (rest : List RemoteLeaf)
    (st : MState) :
    (syncDownload dd (r :: rest) st).1 = (syncDownload dd rest (syncLeaf dd r st).1).1 := rfl

/-- A deleted row list keeps its other rows, none at the deleted path. -/
theorem mem_dbDelete (db : DB) (p : Str) (row : FileRow) (h : row ∈ dbDelete db p) :
    row ∈ db ∧ row.path ≠ p := by
  unfold dbDelete at h
  refine ⟨List.mem_of_mem_filter h, ?_⟩
  have := List.of_mem_filter h
  simpa using this

/-- Frame for a full download pass: rows and keys outside the leaf set are
untouched and the served index never changes. -/
theorem syncDownload_frame (dd : Str) :
    ∀ (leaves : List RemoteLeaf) (st : MState),
      (∀ q, (∀ r ∈ leaves, r.path ≠ q) →
        dbLookup (syncDownload dd leaves st).1.downloadDB q = dbLookup st.downloadDB q)
      ∧ (∀ k, (∀ r ∈ leaves, goJoin dd r.path ≠ k) →
        fsRead (syncDownload dd leaves st).1.fs k = fsRead st.fs k)
      ∧ (syncDownload dd leaves st).1.servedDB = st.servedDB := by
  intro leaves
  induction leaves with
  | nil => intro st; exact ⟨fun q _ => rfl, fun k _ => rfl, rfl⟩
  | cons r rest ih =>
    intro st
    have hstep := syncLeaf_frame dd r st
    have htail := ih (syncLeaf dd r st).1
    rw [syncDownload_cons_fst]
    refine ⟨?_, ?_, ?_⟩
    · intro q hq
      rw [htail.1 q (fun r2 h2 => hq r2 (List.mem_cons_of_mem r h2))]
      exact hstep.1 q (hq r (List.mem_cons_self r rest)).symm
    · intro k hk
      rw [htail.2.1 k (fun r2 h2 => hk r2 (List.mem_cons_of_mem r h2))]
      exact hstep.2.1 k (hk r (List.mem_cons_self r rest)).symm
    · rw [htail.2.2]
      exact hstep.2.2

/-- After the download pass, every non-HTML leaf has an index row defeating
the predicate and a cached file on disk. -/
theorem syncDownload_post (dd : Str) :
    ∀ (leaves : List RemoteLeaf) (st : MState),
      (∀ r ∈ leaves, goHasPre r.path (str "/") = true) →
      (leaves.map RemoteLeaf.path).Nodup →
      ∀ r ∈ leaves, r.isHtml = false →
        ∃ row, dbLookup (syncDownload dd leaves st).1.downloadDB r.path = some row
          ∧ downloadFilter (some (fileOfRow row)) (leafFile r) = false
          ∧ (fsRead (syncDownload dd leaves st).1.fs (goJoin dd r.path)).isSome = true := by
  intro leaves
  induction leaves with
  | nil => intro st _ _ r hr; cases hr
  | cons r0 rest ih =>
    intro st hpre hnodup r hr hhtml
    rw [syncDownload_cons_fst]
    rcases List.mem_cons.mp hr with heq | hmem
    · subst heq
      rcases syncLeaf_post dd r st hhtml with ⟨row, h1, h2, h3⟩
      have hframe := syncDownload_frame dd rest (syncLeaf dd r st).1
      have hne : ∀ r2 ∈ rest, r2.path ≠ r.path := by
        intro r2 hr2 hcontra
        have hn := (List.nodup_cons.mp hnodup).1
        exact hn (hcontra ▸ List.mem_map_of_mem RemoteLeaf.path hr2)
      refine ⟨row, ?_, h2, ?_⟩
      · rw [hframe.1 r.path hne]
        exact h1
      · have hkeyne : ∀ r2 ∈ rest, goJoin dd r2.path ≠ goJoin dd r.path := by
          intro r2 hr2 hcontra
          exact hne r2 hr2 (goJoin_inj dd r2.path r.path
            (hpre r2 (List.mem_cons_of_mem r hr2))
            (hpre r (List.mem_cons_self r rest)) hcontra)
        rw [hframe.2.1 (goJoin dd r.path) hkeyne]
        exact h3
    · exact ih (syncLeaf dd r0 st).1
        (fun r2 h2 => hpre r2 (List.mem_cons_of_mem r0 h2))
        (List.nodup_cons.mp hnodup).2 r hmem hhtml

/-- The deletion scan is the identity when every row is preserved. -/
theorem prepareDeletes_id (preserve : List Str) :
    ∀ (rows : List FileRow) (acc : FS × DB × List MutOp),
      (∀ f ∈ rows, f.path ∈ preserve) → prepareDeletes preserve rows acc = acc := by
  intro rows
  induction rows with
  | nil => intro acc _; rfl
  | cons f rest ih =>
    intro acc h
    unfold prepareDeletes
    rw [if_pos (h f (List.mem_cons_self f rest))]
    exact ih acc (fun f2 h2 => h f2 (List.mem_cons_of_mem f h2))

/-- prepare is mutation-free when every served row is preserved. -/
theorem prepare_no_deletes (cfg : SyncConfig) (preserve : List Str) (st : MState)
    (hcov : ∀ f ∈ st.servedDB, f.path ∈ preserve) :
    prepareMetadataUpdate cfg preserve st
      = (collectNeedUpdate st.downloadDB st.servedDB preserve [], st, []) := by
  unfold prepareMetadataUpdate
  dsimp only
  rw [prepareDeletes_id preserve st.servedDB _ hcov]

/-- Rows surviving the deletion scan come from the accumulator and either
carry a preserved path or match no scanned row. -/
theorem prepareDeletes_rows (preserve : List Str) :
    ∀ (rows : List FileRow) (acc : FS × DB × List MutOp) (row : FileRow),
      row ∈ (prepareDeletes preserve rows acc).2.1 →
      row ∈ acc.2.1 ∧ (row.path ∈ preserve ∨ ∀ f ∈ rows, f.path ≠ row.path) := by
  intro rows
  induction rows with
  | nil =>
    intro acc row h
    exact ⟨h, Or.inr (fun f hf => absurd hf (List.not_mem_nil f))⟩
  | cons f rest ih =>
    intro acc row h
    unfold prepareDeletes at h
    by_cases hf : f.path ∈ preserve
    · rw [if_pos hf] at h
      have h2 := ih acc row h
      refine ⟨h2.1, ?_⟩
      rcases h2.2 with hp | hall
      · exact Or.inl hp
      · by_cases hfp : f.path = row.path
        · exact Or.inl (hfp ▸ hf)
        · refine Or.inr ?_
          intro f2 hf2
          rcases List.mem_cons.mp hf2 with h3 | h3
          · rw [h3]
            exact hfp
          · exact hall f2 h3
    · rw [if_neg hf] at h
      have h2 := ih _ row h
      have h3 := mem_dbDelete acc.2.1 f.path row h2.1
      refine ⟨h3.1, ?_⟩
      rcases h2.2 with hp | hall
      · exact Or.inl hp
      · refine Or.inr ?_
        intro f2 hf2
        rcases List.mem_cons.mp hf2 with h4 | h4
        · rw [h4]
          exact fun hc => h3.2 hc.symm
        · exact hall f2 h4

/-- The deletion scan reads nothing into keys no scanned row names. -/
theorem prepareDeletes_fs (preserve : List Str) :
    ∀ (rows : List FileRow) (acc : FS × DB × List MutOp) (k : Str),
      (∀ f ∈ rows, f.path ≠ k) →
      fsRead (prepareDeletes preserve rows acc).1 k = fsRead acc.1 k := by
  intro rows
  induction rows with
  | nil => intro acc k _; rfl
  | cons f rest ih =>
    intro acc k hk
    unfold prepareDeletes
    by_cases hf : f.path ∈ preserve
    · rw [if_pos hf]
      exact ih acc k (fun f2 h2 => hk f2 (List.mem_cons_of_mem f h2))
    · rw [if_neg hf]
      rw [ih _ k (fun f2 h2 => hk f2 (List.mem_cons_of_mem f h2))]
      show fsRead (fsRemove acc.1 f.path) k = fsRead acc.1 k
      rw [fsRead_fsRemove]
      rw [if_neg (fun hc => hk f (List.mem_cons_self f rest) (hc.symm))]

/-- The deletion scan keeps the served lookup of every preserved path. -/
theorem prepareDeletes_lookup (preserve : List Str) :
    ∀ (rows : List FileRow) (acc : FS × DB × List MutOp) (p : Str), p ∈ preserve →
      dbLookup (prepareDeletes preserve rows acc).2.1 p = dbLookup acc.2.1 p := by
  intro rows
  induction rows with
  | nil => intro acc p _; rfl
  | cons f rest ih =>
    intro acc p hp
    unfold prepareDeletes
    by_cases hf : f.path ∈ preserve
    · rw [if_pos hf]
      exact ih acc p hp
    · rw [if_neg hf]
      rw [ih _ p hp]
      show dbLookup (dbDelete acc.2.1 f.path) p = dbLookup acc.2.1 p
      rw [dbLookup_dbDelete]
      have hne : ¬ p = f.path := fun hc => hf (hc ▸ hp)
      rw [if_neg hne]

/-- Elements of the collected update set come from the accumulator or are
download-row paths of preserved paths satisfying the update condition. -/
theorem collectNeedUpdate_mem (downloadDB rows : DB) :
    ∀ (L acc : List Str) (q : Str), q ∈ collectNeedUpdate downloadDB rows L acc →
      q ∈ acc ∨ ∃ path, path ∈ L ∧ ∃ r, pickFirstFile downloadDB path = some r ∧ q = r.path
        ∧ needsUpdate r (pickFirstFile rows path) = true := by
  intro L
  induction L with
  | nil => intro acc q h; exact Or.inl h
  | cons path rest ih =>
    intro acc q h
    unfold collectNeedUpdate at h
    cases hpick : pickFirstFile downloadDB path with
    | none =>
      simp only [hpick] at h
      rcases ih acc q h with h2 | ⟨p2, hp2, hrest⟩
      · exact Or.inl h2
      · exact Or.inr ⟨p2, List.mem_cons_of_mem path hp2, hrest⟩
    | some r =>
      simp only [hpick] at h
      by_cases hneed : needsUpdate r (pickFirstFile rows path) = true
      · rw [if_pos hneed] at h
        rcases ih _ q h with h2 | ⟨p2, hp2, hrest⟩
        · rcases List.mem_append.mp h2 with h3 | h3
          · exact Or.inl h3
          · refine Or.inr ⟨path, List.mem_cons_self path rest, r, hpick, ?_, hneed⟩
            simpa using h3
        · exact Or.inr ⟨p2, List.mem_cons_of_mem path hp2, hrest⟩
      · rw [if_neg hneed] at h
        rcases ih acc q h with h2 | ⟨p2, hp2, hrest⟩
        · exact Or.inl h2
        · exact Or.inr ⟨p2, List.mem_cons_of_mem path hp2, hrest⟩

/-- The collected update set only grows along the scan. -/
theorem collectNeedUpdate_mono (downloadDB rows : DB) :
    ∀ (L acc : List Str) (q : Str), q ∈ acc → q ∈ collectNeedUpdate downloadDB rows L acc := by
  intro L
  induction L with
  | nil => intro acc q h; exact h
  | cons path rest ih =>
    intro acc q h
    unfold collectNeedUpdate
    cases hpick : pickFirstFile downloadDB path with
    | none => exact ih acc q h
    | some r =>
      dsimp only
      by_cases hneed : needsUpdate r (pickFirstFile rows path) = true
      · rw [if_pos hneed]
        exact ih _ q (List.mem_append.mpr (Or.inl h))
      · rw [if_neg hneed]
        exact ih acc q h

/-- Every preserved path whose download row satisfies the update condition
contributes that row's path to the update set. -/
theorem collectNeedUpdate_complete (downloadDB rows : DB) :
    ∀ (L acc : List Str) (path : Str), path ∈ L →
      ∀ r, pickFirstFile downloadDB path = some r →
        needsUpdate r (pickFirstFile rows path) = true →
        r.path ∈ collectNeedUpdate downloadDB rows L acc := by
  intro L
  induction L with
  | nil => intro acc path hp; cases hp
  | cons p0 rest ih =>
    intro acc path hp r hpick hneed
    unfold collectNeedUpdate
    rcases List.mem_cons.mp hp with heq | hmem
    · subst heq
      simp only [hpick]
      rw [if_pos hneed]
      exact collectNeedUpdate_mono downloadDB rows rest _ r.path
        (List.mem_append.mpr (Or.inr (List.mem_singleton.mpr rfl)))
    · cases hpick0 : pickFirstFile downloadDB p0 with
      | none => exact ih acc path hmem r hpick hneed
      | some r0 =>
        dsimp only
        by_cases hneed0 : needsUpdate r0 (pickFirstFile rows p0) = true
        · rw [if_pos hneed0]
          exact ih _ path hmem r hpick hneed
        · rw [if_neg hneed0]
          exact ih acc path hmem r hpick hneed

/-- The regular-file phase: lookups outside its list are unchanged, and every
list member with a download row ends up holding exactly that row in the
served index. -/
theorem otherFold_servedLookup (cfg : SyncConfig) :
    ∀ (L : List Str) (acc out : MState × List MutOp),
      List.foldlM (otherStep cfg) acc L = Except.ok out →
      (∀ p, (∀ q ∈ L, q ≠ p) → dbLookup out.1.servedDB p = dbLookup acc.1.servedDB p)
      ∧ (∀ p ∈ L, ∀ r, pickFirstFile acc.1.downloadDB p = some r →
          dbLookup out.1.servedDB p = some (rowOfFile r)) := by
  intro L
  induction L with
  | nil =>
    intro acc out hrun
    rw [List.foldlM_nil] at hrun
    injection hrun with h
    subst h
    exact ⟨fun p _ => rfl, fun p hp => absurd hp (List.not_mem_nil p)⟩
  | cons q L ih =>
    intro acc out hrun
    rw [List.foldlM_cons] at hrun
    cases hpick : pickFirstFile acc.1.downloadDB q with
    | none =>
      have hstep : otherStep cfg acc q = Except.ok acc := by
        simp only [otherStep, hpick]
      rw [hstep] at hrun
      have hres := ih acc out hrun
      refine ⟨?_, ?_⟩
      · intro p hp
        exact hres.1 p (fun q2 h2 => hp q2 (List.mem_cons_of_mem q h2))
      · intro p hp r hr
        rcases List.mem_cons.mp hp with heq | hmem
        · subst heq
          rw [hpick] at hr
          cases hr
        · exact hres.2 p hmem r hr
    | some rf =>
      cases hread : fsRead acc.1.fs (goJoin cfg.downloadDir q) with
      | none =>
        have hstep : otherStep cfg acc q = Except.error () := by
          simp only [otherStep, hpick, hread]
        rw [hstep] at hrun
        cases hrun
      | some content =>
        have hstep : otherStep cfg acc q = Except.ok
            (⟨fsWrite acc.1.fs (goJoin cfg.mediaDir q) content, acc.1.downloadDB,
                dbUpsert acc.1.servedDB (rowOfFile rf)⟩,
              acc.2 ++ [MutOp.byteWrite (goJoin cfg.mediaDir q),
                MutOp.indexUpsert rf.path]) := by
          simp only [otherStep, hpick, hread]
        rw [hstep] at hrun
        have hres := ih _ out hrun
        have hrfpath : rf.path = q := pickFirstFile_path _ _ _ hpick
        refine ⟨?_, ?_⟩
        · intro p hp
          have h1 := hres.1 p (fun q2 h2 => hp q2 (List.mem_cons_of_mem q h2))
          rw [h1]
          show dbLookup (dbUpsert acc.1.servedDB (rowOfFile rf)) p = _
          rw [dbLookup_dbUpsert_ne]
          show p ≠ (rowOfFile rf).path
          show p ≠ rf.path
          rw [hrfpath]
          exact fun hc => hp q (List.mem_cons_self q L) hc.symm
        · intro p hp r hr
          rcases List.mem_cons.mp hp with heq | hmem
          · subst heq
            have hreq : r = rf := by
              rw [hpick] at hr
              exact (Option.some.inj hr).symm
            subst hreq
            by_cases hmem2 : p ∈ L
            · exact hres.2 p hmem2 r hr
            · have h1 := hres.1 p (fun q2 h2 hc => hmem2 (hc ▸ h2))
              rw [h1]
              show dbLookup (dbUpsert acc.1.servedDB (rowOfFile r)) p = _
              have : p = (rowOfFile r).path := by
                show p = r.path
                rw [hrfpath]
              rw [this]
              exact dbLookup_dbUpsert_self acc.1.servedDB (rowOfFile r)
          · exact hres.2 p hmem r hr

/-- Rows in the served index after the regular-file phase come from before
it or carry a path of its list. -/
theorem otherFold_rows (cfg : SyncConfig) :
    ∀ (L : List Str) (acc out : MState × List MutOp),
      List.foldlM (otherStep cfg) acc L = Except.ok out →
      ∀ row ∈ out.1.servedDB, row ∈ acc.1.servedDB ∨ row.path ∈ L := by
  intro L
  induction L with
  | nil =>
    intro acc out hrun row h
    rw [List.foldlM_nil] at hrun
    injection hrun with h2
    subst h2
    exact Or.inl h
  | cons q L ih =>
    intro acc out hrun row h
    rw [List.foldlM_cons] at hrun
    cases hpick : pickFirstFile acc.1.downloadDB q with
    | none =>
      have hstep : otherStep cfg acc q = Except.ok acc := by
        simp only [otherStep, hpick]
      rw [hstep] at hrun
      rcases ih acc out hrun row h with h2 | h2
      · exact Or.inl h2
      · exact Or.inr (List.mem_cons_of_mem q h2)
    | some rf =>
      cases hread : fsRead acc.1.fs (goJoin cfg.downloadDir q) with
      | none =>
        have hstep : otherStep cfg acc q = Except.error () := by
          simp only [otherStep, hpick, hread]
        rw [hstep] at hrun
        cases hrun
      | some content =>
        have hstep : otherStep cfg acc q = Except.ok
            (⟨fsWrite acc.1.fs (goJoin cfg.mediaDir q) content, acc.1.downloadDB,
                dbUpsert acc.1.servedDB (rowOfFile rf)⟩,
              acc.2 ++ [MutOp.byteWrite (goJoin cfg.mediaDir q),
                MutOp.indexUpsert rf.path]) := by
          simp only [otherStep, hpick, hread]
        rw [hstep] at hrun
        rcases ih _ out hrun row h with h2 | h2
        · rcases mem_dbUpsert acc.1.servedDB (rowOfFile rf) row h2 with h3 | h3
          · exact Or.inl h3
          · right
            rw [h3]
            show rf.path ∈ q :: L
            rw [pickFirstFile_path _ _ _ hpick]
            exact List.mem_cons_self q L
        · exact Or.inr (List.mem_cons_of_mem q h2)

/-- Every log entry of the placeholder phase is a byte write of one of its
list's served keys. -/
theorem strmFold_log (cfg : SyncConfig) :
    ∀ (L : List Str) (acc out : MState × List MutOp),
      List.foldlM (strmStep cfg) acc L = Except.ok out →
      ∀ op ∈ out.2, op ∈ acc.2 ∨ ∃ p ∈ L, op = MutOp.byteWrite (goJoin cfg.mediaDir p) := by
  intro L
  induction L with
  | nil =>
    intro acc out hrun op h
    rw [List.foldlM_nil] at hrun
    injection hrun with h2
    subst h2
    exact Or.inl h
  | cons q L ih =>
    intro acc out hrun op h
    rw [List.foldlM_cons] at hrun
    cases hread : fsRead acc.1.fs (goJoin cfg.downloadDir q) with
    | none =>
      have hstep : strmStep cfg acc q = Except.error () := by
        simp only [strmStep, hread]
      rw [hstep] at hrun
      cases hrun
    | some cq =>
      have hstep : strmStep cfg acc q = Except.ok
          (⟨fsWrite acc.1.fs (goJoin cfg.mediaDir q) (rewriteStrmContent cfg cq ++ str "\n"),
            acc.1.downloadDB, acc.1.servedDB⟩,
            acc.2 ++ [MutOp.byteWrite (goJoin cfg.mediaDir q)]) := by
        simp only [strmStep, hread]
      rw [hstep] at hrun
      rcases ih _ out hrun op h with h2 | ⟨p, hp, hop⟩
      · rcases List.mem_append.mp h2 with h3 | h3
        · exact Or.inl h3
        · right
          refine ⟨q, List.mem_cons_self q L, ?_⟩
          simpa using h3
      · exact Or.inr ⟨p, List.mem_cons_of_mem q hp, hop⟩

/-- compareMetadata depends on the filesystem only through reads of download
cache keys. -/
theorem compareMetadata_congr (cfg : SyncConfig) (files : List MetadataFile)
    (alist : List Str) (fs fs2 : FS)
    (h : ∀ x, fsRead fs (goJoin cfg.downloadDir x) = fsRead fs2 (goJoin cfg.downloadDir x)) :
    compareMetadata cfg files alist fs = compareMetadata cfg files alist fs2 := by
  have hskip : strmToSkip cfg fs (buildDirMap files true) alist
      = strmToSkip cfg fs2 (buildDirMap files true) alist := by
    unfold strmToSkip
    apply List.foldl_ext
    intro acc entry _
    apply List.foldl_ext
    intro acc2 strm _
    simp only [h]
  simp only [compareMetadata, hskip]

/-- A looked-up row is a row of the index. -/
theorem dbLookup_mem (db : DB) (p : Str) (r : FileRow) (h : dbLookup db p = some r) :
    r ∈ db := by
  unfold dbLookup at h
  exact List.mem_of_find?_eq_some h

/-- A picked file scans out of some row of the index. -/
theorem pickFirstFile_mem (db : DB) (p : Str) (f : MetadataFile)
    (h : pickFirstFile db p = some f) : ∃ row, row ∈ db ∧ f = fileOfRow row := by
  unfold pickFirstFile at h
  cases hl : dbLookup db p with
  | none => rw [hl] at h; cases h
  | some r =>
    rw [hl] at h
    exact ⟨r, dbLookup_mem db p r hl, (Option.some.inj h).symm⟩

/-- Grafting a slash onto a path makes it slash-prefixed. -/
theorem goHasPre_slash_append (x : Str) : goHasPre (str "/" ++ x) (str "/") = true := by
  unfold goHasPre
  exact List.isPrefixOf_iff_prefix.mpr (List.prefix_append _ x)

/-- Every join key is also the join of a slash-prefixed path. -/
theorem goJoin_slashify (a x : Str) :
    ∃ x2, goHasPre x2 (str "/") = true ∧ goJoin a x = goJoin a x2 := by
  by_cases h : goHasPre x (str "/") = true
  · exact ⟨x, h, rfl⟩
  · refine ⟨str "/" ++ x, goHasPre_slash_append x, ?_⟩
    unfold goJoin
    rw [if_neg h, if_pos (goHasPre_slash_append x)]

/-- A non-placeholder file matching its own served record needs no update. -/
theorem needsUpdate_self (f : MetadataFile) (h : (goExt f.name == str ".strm") = false) :
    needsUpdate f (some f) = false := by
  simp [needsUpdate, h]

/-- Destructuring a successful cycle into its four phases. -/
theorem runCycle_ok (cfg : SyncConfig) (leaves : List RemoteLeaf) (alist : List Str)
    (st st2 : MState) (log : List MutOp)
    (h : runCycle cfg leaves alist st = Except.ok (st2, log)) :
    ∃ s, syncMetadata cfg
        (prepareMetadataUpdate cfg (compareMetadata cfg
            (listFiles (syncDownload cfg.downloadDir leaves st).1.downloadDB) alist
            (syncDownload cfg.downloadDir leaves st).1.fs)
          (syncDownload cfg.downloadDir leaves st).1).1
        (prepareMetadataUpdate cfg (compareMetadata cfg
            (listFiles (syncDownload cfg.downloadDir leaves st).1.downloadDB) alist
            (syncDownload cfg.downloadDir leaves st).1.fs)
          (syncDownload cfg.downloadDir leaves st).1).2.1 = Except.ok s
      ∧ st2 = s.1
      ∧ log = (syncDownload cfg.downloadDir leaves st).2
          ++ (prepareMetadataUpdate cfg (compareMetadata cfg
              (listFiles (syncDownload cfg.downloadDir leaves st).1.downloadDB) alist
              (syncDownload cfg.downloadDir leaves st).1.fs)
            (syncDownload cfg.downloadDir leaves st).1).2.2 ++ s.2 := by
  unfold runCycle at h
  dsimp only at h
  split at h
  · cases h
  · rename_i s heq
    injection h with h2
    obtain ⟨ha, hb⟩ := Prod.ext_iff.mp h2
    exact ⟨s, heq, ha.symm, hb.symm⟩

/-- Destructuring a successful serve-side sync into its two phases. -/
theorem syncMetadata_ok (cfg : SyncConfig) (U : List Str) (st : MState)
    (s : MState × List MutOp) (h : syncMetadata cfg U st = Except.ok s) :
    ∃ mid, List.foldlM (strmStep cfg) (st, ([] : List MutOp))
        (U.filter (fun p => goExt (goBase p) == str ".strm")) = Except.ok mid
      ∧ List.foldlM (otherStep cfg) mid
        (U.filter (fun p => !(goExt (goBase p) == str ".strm"))) = Except.ok s := by
  unfold syncMetadata at h
  dsimp only at h
  split at h
  · cases h
  · rename_i mid heq
    exact ⟨mid, heq, h⟩

/-- C6 (amended). With an unchanged remote tree and listing index, the second
full cycle performs zero index mutations and zero file removals; its only
disk activity is re-publishing each placeholder of the update set into the
served directory, so every logged operation of the second run is a byte write
of a served .strm key. -/
theorem c6_second_cycle_strm_only (cfg : SyncConfig) (leaves : List RemoteLeaf)
    (alistPaths : List Str) (st0 st1 st2 : MState) (log1 log2 : List MutOp)
    (hdirs : goodDirs cfg)
    (hleaf : ∀ r ∈ leaves, goodPath cfg r.path)
    (hnodup : (leaves.map RemoteLeaf.path).Nodup)
    (hdb : ∀ row ∈ st0.downloadDB, goodPath cfg row.path ∧ row.name = goBase row.path)
    (hserved : ∀ row ∈ st0.servedDB, goodPath cfg row.path)
    (h1 : runCycle cfg leaves alistPaths st0 = Except.ok (st1, log1))
    (h2 : runCycle cfg leaves alistPaths st1 = Except.ok (st2, log2)) :
    ∀ op ∈ log2, ∃ p, (goExt (goBase p) == str ".strm") = true
      ∧ op = MutOp.byteWrite (goJoin cfg.mediaDir p) := by
  obtain ⟨s1, hsm1, hst1, hlog1⟩ := runCycle_ok cfg leaves alistPaths st0 st1 log1 h1
  set D1 := syncDownload cfg.downloadDir leaves st0 with hD1
  set pres1 := compareMetadata cfg (listFiles D1.1.downloadDB) alistPaths D1.1.fs with hpres1
  set P1 := prepareMetadataUpdate cfg pres1 D1.1 with hP1
  obtain ⟨mid1, hstrm1, hother1⟩ := syncMetadata_ok cfg P1.1 P1.2.1 s1 hsm1
  -- structural projections of prepare
  have hP1fst : P1.1 = collectNeedUpdate D1.1.downloadDB D1.1.servedDB pres1 [] := by
    rw [hP1]
    rfl
  have hP1state : P1.2.1
      = ⟨(prepareDeletes pres1 D1.1.servedDB (D1.1.fs, D1.1.servedDB, [])).1,
         D1.1.downloadDB,
         (prepareDeletes pres1 D1.1.servedDB (D1.1.fs, D1.1.servedDB, [])).2.1⟩ := by
    rw [hP1]
    rfl
  -- run-1 download facts
  have hD1served : D1.1.servedDB = st0.servedDB := by
    rw [hD1]
    exact (syncDownload_frame cfg.downloadDir leaves st0).2.2
  have hdb1 : ∀ row ∈ D1.1.downloadDB, goodPath cfg row.path ∧ row.name = goBase row.path := by
    intro row hrow
    rw [hD1] at hrow
    rcases syncDownload_rows cfg.downloadDir leaves st0 row hrow with h | ⟨r, hr, hrw⟩
    · exact hdb row h
    · subst hrw
      exact ⟨hleaf r hr, rfl⟩
  have hpost : ∀ r ∈ leaves, r.isHtml = false →
      ∃ row, dbLookup D1.1.downloadDB r.path = some row
        ∧ downloadFilter (some (fileOfRow row)) (leafFile r) = false
        ∧ (fsRead D1.1.fs (goJoin cfg.downloadDir r.path)).isSome = true := by
    rw [hD1]
    exact syncDownload_post cfg.downloadDir leaves st0
      (fun r hr => (hleaf r hr).1) hnodup
  -- serve-phase frame facts for run 1
  have hmidDB : mid1.1.downloadDB = D1.1.downloadDB := by
    have h := (strmFold_preserves cfg _ _ mid1 hstrm1).2.1
    rw [hP1state] at h
    exact h
  have hmidServed : mid1.1.servedDB
      = (prepareDeletes pres1 D1.1.servedDB (D1.1.fs, D1.1.servedDB, [])).2.1 := by
    have h := (strmFold_preserves cfg _ _ mid1 hstrm1).2.2
    rw [hP1state] at h
    exact h
  have hs1DB : s1.1.downloadDB = D1.1.downloadDB := by
    rw [(otherFold_preserves cfg _ mid1 s1 hother1).2]
    exact hmidDB
  have hst1DB : st1.downloadDB = D1.1.downloadDB := by
    rw [hst1]
    exact hs1DB
  -- every update-set element is preserved and well-placed
  have hU1 : ∀ q ∈ P1.1, q ∈ pres1 ∧ goodPath cfg q := by
    intro q hq
    rw [hP1fst] at hq
    rcases collectNeedUpdate_mem D1.1.downloadDB D1.1.servedDB pres1 [] q hq with
      h | ⟨path, hpath, r, hpick, hqr, _⟩
    · exact absurd h (List.not_mem_nil q)
    · have hrpath : r.path = path := pickFirstFile_path _ _ _ hpick
      subst hqr
      obtain ⟨row, hrowmem, hre⟩ := pickFirstFile_mem _ _ _ hpick
      refine ⟨hrpath ▸ hpath, ?_⟩
      have : r.path = row.path := by rw [hre]; rfl
      rw [this]
      exact (hdb1 row hrowmem).1
  -- the single filesystem fact: download-cache keys survive the serve phase
  have hfs_dd : ∀ x, fsRead s1.1.fs (goJoin cfg.downloadDir x)
      = fsRead D1.1.fs (goJoin cfg.downloadDir x) := by
    intro x
    obtain ⟨x2, hx2pre, hx2⟩ := goJoin_slashify cfg.downloadDir x
    rw [hx2]
    have hother := (otherFold_preserves cfg _ mid1 s1 hother1).1
      (goJoin cfg.downloadDir x2) ?_
    · have hstrm := (strmFold_preserves cfg _ _ mid1 hstrm1).1
        (goJoin cfg.downloadDir x2) ?_
      · rw [hother, hstrm, hP1state]
        apply prepareDeletes_fs
        intro f hf
        rw [hD1served] at hf
        exact raw_ne_join cfg.downloadDir f.path x2 hdirs.2.1
          (hserved f hf).2.1 hx2pre
      · intro q hq
        exact goJoin_ne_of_sep cfg.mediaDir cfg.downloadDir q x2 hdirs.1 hdirs.2.1
          hdirs.2.2 (hU1 q (List.mem_of_mem_filter hq)).2.1 hx2pre
    · intro q hq
      exact goJoin_ne_of_sep cfg.mediaDir cfg.downloadDir q x2 hdirs.1 hdirs.2.1
        hdirs.2.2 (hU1 q (List.mem_of_mem_filter hq)).2.1 hx2pre
  -- every served row after run 1 is preserved
  have hservcov : ∀ row ∈ s1.1.servedDB, row.path ∈ pres1 := by
    intro row h
    rcases otherFold_rows cfg _ mid1 s1 hother1 row h with hmem | hpath
    · rw [hmidServed] at hmem
      have h2 := prepareDeletes_rows pres1 D1.1.servedDB (D1.1.fs, D1.1.servedDB, []) row hmem
      rcases h2.2 with hp | hall
      · exact hp
      · exact absurd rfl (hall row h2.1)
    · exact (hU1 row.path (List.mem_of_mem_filter hpath)).1
  -- served lookups of preserved paths are the pre-run lookups after the deletes
  have hlookup_pres : ∀ q ∈ pres1,
      dbLookup mid1.1.servedDB q = dbLookup st0.servedDB q := by
    intro q hq
    rw [hmidServed, ← hD1served]
    exact prepareDeletes_lookup pres1 D1.1.servedDB (D1.1.fs, D1.1.servedDB, []) q hq
  -- run 2: the download pass is a strict no-op
  have hnoop : syncDownload cfg.downloadDir leaves st1 = (st1, []) := by
    apply syncDownload_noop
    intro r hr hhtml
    obtain ⟨row, hlook, hfilt, hcached⟩ := hpost r hr hhtml
    refine ⟨fileOfRow row, ?_, ?_, hfilt⟩
    · unfold pickFirstFile
      rw [hst1DB, hlook]
      rfl
    · have hrowpath : (fileOfRow row).path = r.path := dbLookup_path _ _ _ hlook
      rw [hrowpath, hst1, hfs_dd r.path]
      exact hcached
  obtain ⟨s2, hsm2, _, hlog2⟩ := runCycle_ok cfg leaves alistPaths st1 st2 log2 h2
  simp only [hnoop] at hsm2 hlog2
  -- the second compare output equals the first
  have hpres2 : compareMetadata cfg (listFiles st1.downloadDB) alistPaths st1.fs
      = pres1 := by
    rw [hst1, hs1DB]
    rw [compareMetadata_congr cfg (listFiles D1.1.downloadDB) alistPaths s1.1.fs D1.1.fs hfs_dd]
  rw [hpres2] at hsm2 hlog2
  -- the second prepare deletes nothing
  have hprep2 : prepareMetadataUpdate cfg pres1 st1
      = (collectNeedUpdate st1.downloadDB st1.servedDB pres1 [], st1, []) := by
    apply prepare_no_deletes
    intro f hf
    rw [hst1] at hf
    exact hservcov f hf
  simp only [hprep2, List.nil_append] at hsm2 hlog2
  obtain ⟨mid2, hstrm2, hother2⟩ := syncMetadata_ok cfg _ st1 s2 hsm2
  -- the second update set is placeholders only
  have hallstrm : ∀ q ∈ collectNeedUpdate st1.downloadDB st1.servedDB pres1 [],
      (goExt (goBase q) == str ".strm") = true := by
    intro q hq
    rcases collectNeedUpdate_mem st1.downloadDB st1.servedDB pres1 [] q hq with
      h | ⟨path, hpath, r, hpick, hqr, hneed⟩
    · exact absurd h (List.not_mem_nil q)
    · have hrpath : r.path = path := pickFirstFile_path _ _ _ hpick
      subst hqr
      rw [← hrpath] at hpath hpick hneed
      by_contra hnotstrm
      have hb : (goExt (goBase r.path) == str ".strm") = false := by
        cases hc : (goExt (goBase r.path) == str ".strm") with
        | true => exact absurd hc hnotstrm
        | false => rfl
      obtain ⟨row, hrowmem, hre⟩ := pickFirstFile_mem _ _ _ hpick
      have hrow_db : row ∈ D1.1.downloadDB := by
        rw [hst1DB] at hrowmem
        exact hrowmem
      have hrname : r.name = goBase r.path := by
        rw [hre]
        exact (hdb1 row hrow_db).2
      have hbname : (goExt r.name == str ".strm") = false := by
        rw [hrname]
        exact hb
      have hpickD : pickFirstFile D1.1.downloadDB r.path = some r := by
        rw [← hst1DB]
        exact hpick
      by_cases hmem1 : r.path ∈ P1.1
      · -- republished by run 1: the served row equals the download row
        have hmemo : r.path ∈ P1.1.filter (fun p => !(goExt (goBase p) == str ".strm")) := by
          refine List.mem_filter.mpr ⟨hmem1, ?_⟩
          show (!(goExt (goBase r.path) == str ".strm")) = true
          rw [hb]
          rfl
        have hpickM : pickFirstFile mid1.1.downloadDB r.path = some r := by
          rw [hmidDB]
          exact hpickD
        have hserv := (otherFold_servedLookup cfg _ mid1 s1 hother1).2
          r.path hmemo r hpickM
        have hneedval : pickFirstFile st1.servedDB r.path = some r := by
          unfold pickFirstFile
          rw [hst1, hserv]
          show some (fileOfRow (rowOfFile r)) = some r
          rw [hre, rowOfFile_fileOfRow]
        rw [hneedval, needsUpdate_self r hbname] at hneed
        cases hneed
      · -- untouched by run 1: the old served row still defeats the condition
        have hserv0 : dbLookup s1.1.servedDB r.path = dbLookup mid1.1.servedDB r.path :=
          (otherFold_servedLookup cfg _ mid1 s1 hother1).1 r.path
            (fun q2 hq2 hc => hmem1 (hc ▸ List.mem_of_mem_filter hq2))
        have hlook01 : dbLookup st1.servedDB r.path = dbLookup st0.servedDB r.path := by
          rw [hst1, hserv0]
          exact hlookup_pres r.path hpath
        have hpick01 : pickFirstFile st1.servedDB r.path
            = pickFirstFile st0.servedDB r.path := by
          unfold pickFirstFile
          rw [hlook01]
        have hneed1 : needsUpdate r (pickFirstFile D1.1.servedDB r.path) = false := by
          cases hc : needsUpdate r (pickFirstFile D1.1.servedDB r.path) with
          | false => rfl
          | true =>
            refine absurd ?_ hmem1
            rw [hP1fst]
            exact collectNeedUpdate_complete D1.1.downloadDB D1.1.servedDB pres1 []
              r.path hpath r hpickD hc
        rw [hD1served] at hneed1
        rw [hpick01, hneed1] at hneed
        cases hneed
  -- hence the regular-file list of run 2 is empty
  have hother_nil : (collectNeedUpdate st1.downloadDB st1.servedDB pres1 []).filter
      (fun p => !(goExt (goBase p) == str ".strm")) = [] := by
    apply List.filter_eq_nil_iff.mpr
    intro q hq
    simp [hallstrm q hq]
  rw [hother_nil, List.foldlM_nil] at hother2
  injection hother2 with hmid2s2
  -- every second-run log entry is a placeholder byte write
  intro op hop
  rw [hlog2, ← hmid2s2] at hop
  rcases strmFold_log cfg _ (st1, []) mid2 hstrm2 op hop with h | ⟨p, hp, hop2⟩
  · exact absurd h (List.not_mem_nil op)
  · exact ⟨p, (List.mem_filter.mp hp).2, hop2⟩

/-- Two consecutive full cycles against the same remote tree and listing
index, returning the second cycle's mutation log. -/
def runTwice (cfg : SyncConfig) (leaves : List RemoteLeaf) (alistPaths : List Str)
    (st : MState) : Except Unit (List MutOp) :=
  match runCycle cfg leaves alistPaths st with
  | Except.error e => Except.error e
  | Except.ok s1 =>
    match runCycle cfg leaves alistPaths s1.1 with
    | Except.error e => Except.error e
    | Except.ok s2 => Except.ok s2.2

/-- The idempotence scenario's configuration: served dir /media, cache dir
/download, endpoint http://my.host/ with strm root /z, purge off. -/
def cfgC6 : SyncConfig :=
  ⟨str "/media", str "/download", false, str "http://my.host/", str "/z"⟩

/-- One unchanged remote placeholder leaf for the idempotence scenario. -/
def leafC6 : RemoteLeaf :=
  ⟨str "/a/b.strm", 1, 1, str "e", str "http://xiaoya.host:5678/d/x/y", false⟩

/-- The state after the first cycle of the idempotence scenario: cached and
published placeholder, one download row, no served rows. -/
def st1C6 : MState :=
  ⟨[(str "/download/a/b.strm", str "http://xiaoya.host:5678/d/x/y"),
    (str "/media/a/b.strm", str "http://my.host/z/x/y" ++ str "\n")],
   [⟨str "/a/b.strm", str "b.strm", 1, 1, str "e"⟩], []⟩

/-- C6 counterexample to the literal zero-byte-writes reading: with one
unchanged .strm leaf and an unchanged listing index, the second cycle still
performs a byte write (it re-publishes the placeholder into the served
directory), so its mutation log is not empty. -/
theorem c6_counterexample :
    runTwice cfgC6 [leafC6] [] ⟨[], [], []⟩
      = Except.ok [MutOp.byteWrite (str "/media/a/b.strm")]
    ∧ [MutOp.byteWrite (str "/media/a/b.strm")] ≠ ([] : List MutOp) :=
  ⟨rfl, by decide⟩

/-- Witness for the amended C6 on the concrete idempotence scenario: the
second cycle's only logged operation is the placeholder's served byte
write. -/
theorem c6_second_cycle_strm_only_witness :
    ∃ p, (goExt (goBase p) == str ".strm") = true
      ∧ MutOp.byteWrite (str "/media/a/b.strm")
        = MutOp.byteWrite (goJoin cfgC6.mediaDir p) :=
  c6_second_cycle_strm_only cfgC6 [leafC6] [] ⟨[], [], []⟩ st1C6 st1C6 _
    [MutOp.byteWrite (str "/media/a/b.strm")]
    ⟨by decide, by decide, by decide, by decide⟩
    (by intro r hr
        cases hr with
        | head => exact ⟨by decide, by decide, by decide⟩
        | tail _ h => cases h)
    (by decide)
    (fun row h => absurd h (List.not_mem_nil row))
    (fun row h => absurd h (List.not_mem_nil row))
    rfl rfl
    (MutOp.byteWrite (str "/media/a/b.strm"))
    (List.mem_singleton.mpr rfl)

end Xy
